import Mathlib

/-!
Formal model of the agri-data-generation pipeline: the combinatorial scenario
bundle builder (`core/knowledge/bundle_builder.py`), the resumable batch
partitioner and sequential batch driver (`gemini_batch_processing/create_job.py`),
and the rate-limited worker pool (`core/generators/generator.py`).

Python dicts are modelled as insertion-ordered association lists, JSON values by
an inductive `JVal`, file contents by lists of lines, and the external inference
provider / random choice by explicit oracles.  Every function is a direct
transcription of the corresponding Python code.
-/

namespace AgriGen

/-- A JSON value, as produced by `json.loads` and consumed by `json.dumps`.
Objects keep their key insertion order, like Python dicts.  The only
floating-point literal in the sources (the constant `0.2` in a generation
config) is kept as its literal text via `jnumLit`. -/
inductive JVal where
  | jnull : JVal
  | jbool : Bool → JVal
  | jint : Int → JVal
  | jnumLit : String → JVal
  | jstr : String → JVal
  | jarr : List JVal → JVal
  | jobj : List (String × JVal) → JVal
deriving Repr

/-- A Python dict with JSON values: ordered key/value pairs. -/
abbrev Entry := List (String × JVal)

/-- `d.get(key)` / `d[key]`: first (unique) binding of `key`. -/
def lookupKey : Entry → String → Option JVal
  | [], _ => none
  | (k, v) :: fs, key => if k = key then some v else lookupKey fs key

/-- `key in d`. -/
def hasKey (e : Entry) (key : String) : Bool := (lookupKey e key).isSome

/-- `d[key] = v`: update in place (keeping position) or append. -/
def setKey : Entry → String → JVal → Entry
  | [], key, v => [(key, v)]
  | (k, w) :: fs, key, v =>
      if k = key then (k, v) :: fs else (k, w) :: setKey fs key v

/-- `del d[key]` (a Python dict holds each key at most once, so removing
every binding of `key` from the association list is the dict behaviour). -/
def delKey : Entry → String → Entry
  | [], _ => []
  | (k, w) :: fs, key => if k = key then delKey fs key else (k, w) :: delKey fs key

/-- `d.get(key, [])` for the nested taxonomy lists (`languages`, `problems`):
an absent key yields `[]`; the data always stores JSON arrays there. -/
def getArr (e : Entry) (key : String) : List JVal :=
  match lookupKey e key with
  | some (JVal.jarr xs) => xs
  | _ => []

/-- One step of Python `str.title()`: an alphabetic character is uppercased
when the previous character was not alphabetic, lowercased otherwise. -/
def titleChar (prevAlpha : Bool) (c : Char) : Char :=
  if c.isAlpha then (if prevAlpha then c.toLower else c.toUpper) else c

def pyTitleGo : Bool → List Char → List Char
  | _, [] => []
  | prev, c :: cs => titleChar prev c :: pyTitleGo c.isAlpha cs

/-- Python `str.title()` (ASCII letters, which is all the data uses). -/
def pyTitle (s : String) : String := String.mk (pyTitleGo false s.data)

/-- Decimal digit character. -/
def digitChar (n : Nat) : Char := Char.ofNat (48 + n)

/-- Decimal rendering, structured with explicit fuel (`n + 1` steps always
suffice) so that the kernel can evaluate it on concrete inputs. -/
def natCharsGo : Nat → Nat → List Char
  | 0, _ => []
  | fuel + 1, n =>
      if n < 10 then [digitChar n]
      else natCharsGo fuel (n / 10) ++ [digitChar (n % 10)]

/-- Decimal rendering of a natural number, as Python `str(int)` does. -/
def natChars (n : Nat) : List Char := natCharsGo (n + 1) n

def natStr (n : Nat) : String := String.mk (natChars n)

/-- Python `str(int)` for signed integers. -/
def intChars : Int → List Char
  | Int.ofNat n => natChars n
  | Int.negSucc n => '-' :: natChars (n + 1)

/-! ### A model of `json.dumps(..., ensure_ascii=False)`

The serializer emits the character sequence of one JSON document, with the
default separators `", "` and `": "`.  Control characters inside strings are
escaped exactly as `json.dumps` escapes them (so a serialized record is always
a single physical line). -/

def lbrace : Char := Char.ofNat 123

def rbrace : Char := Char.ofNat 125

/-- The double-quote character. -/
def qmark : Char := Char.ofNat 34

/-- The backslash character. -/
def bslash : Char := Char.ofNat 92

/-- The single-quote character (Python `repr` string delimiter). -/
def squote : Char := Char.ofNat 39

/-- Hexadecimal digit character (lowercase, as `json.dumps` emits). -/
def hexDigit (n : Nat) : Char := if n < 10 then digitChar n else Char.ofNat (87 + n)

/-- Escaping of one character inside a JSON string literal. -/
def escChar (c : Char) : List Char :=
  if c = qmark then [bslash, qmark]
  else if c = bslash then [bslash, bslash]
  else if c = '\n' then [bslash, 'n']
  else if c = '\t' then [bslash, 't']
  else if c = '\r' then [bslash, 'r']
  else if c.toNat = 8 then [bslash, 'b']
  else if c.toNat = 12 then [bslash, 'f']
  else if c.toNat < 32 then
    [bslash, 'u', '0', '0', hexDigit (c.toNat / 16), hexDigit (c.toNat % 16)]
  else [c]

/-- A JSON string literal: quote, escaped characters, quote. -/
def dumpStr (s : String) : List Char :=
  qmark :: (s.data.foldr (fun c acc => escChar c ++ acc) [qmark])

mutual

/-- `json.dumps(v, ensure_ascii=False)` as a character list. -/
def dumps : JVal → List Char
  | JVal.jnull => ['n', 'u', 'l', 'l']
  | JVal.jbool true => ['t', 'r', 'u', 'e']
  | JVal.jbool false => ['f', 'a', 'l', 's', 'e']
  | JVal.jint n => intChars n
  | JVal.jnumLit s => s.data
  | JVal.jstr s => dumpStr s
  | JVal.jarr xs => '[' :: dumpsList xs ++ [']']
  | JVal.jobj fs => lbrace :: dumpsFields fs ++ [rbrace]

/-- Array elements joined by `", "`. -/
def dumpsList : List JVal → List Char
  | [] => []
  | [x] => dumps x
  | x :: y :: xs => dumps x ++ ',' :: ' ' :: dumpsList (y :: xs)

/-- Object fields `"k": v` joined by `", "`. -/
def dumpsFields : List (String × JVal) → List Char
  | [] => []
  | [(k, v)] => dumpStr k ++ ':' :: ' ' :: dumps v
  | (k, v) :: f :: fs =>
      dumpStr k ++ ':' :: ' ' :: dumps v ++ ',' :: ' ' :: dumpsFields (f :: fs)

end

mutual

/-- Python `repr` of a parsed-JSON value (containers render their elements
recursively; the sources never interpolate strings that need `repr` escapes). -/
def pyRepr : JVal → List Char
  | JVal.jnull => ['N', 'o', 'n', 'e']
  | JVal.jbool true => ['T', 'r', 'u', 'e']
  | JVal.jbool false => ['F', 'a', 'l', 's', 'e']
  | JVal.jint n => intChars n
  | JVal.jnumLit s => s.data
  | JVal.jstr s => squote :: s.data ++ [squote]
  | JVal.jarr xs => '[' :: pyReprList xs ++ [']']
  | JVal.jobj fs => lbrace :: pyReprFields fs ++ [rbrace]

def pyReprList : List JVal → List Char
  | [] => []
  | [x] => pyRepr x
  | x :: y :: xs => pyRepr x ++ ',' :: ' ' :: pyReprList (y :: xs)

def pyReprFields : List (String × JVal) → List Char
  | [] => []
  | [(k, v)] => squote :: k.data ++ squote :: ':' :: ' ' :: pyRepr v
  | (k, v) :: f :: fs =>
      squote :: k.data ++ squote :: ':' :: ' ' :: pyRepr v ++ ',' :: ' ' :: pyReprFields (f :: fs)

end

/-- Python `str()` of a parsed-JSON value (as used when one is interpolated
into an f-string): a string is itself, anything else renders like `repr`. -/
def pyStr : JVal → String
  | JVal.jstr s => s
  | v => String.mk (pyRepr v)

mutual

/-- Structural equality of JSON values, modelling Python `==` on the scalar
and list values that the code compares (taxonomy ids are strings or ints). -/
def jvalBeq : JVal → JVal → Bool
  | JVal.jnull, JVal.jnull => true
  | JVal.jbool a, JVal.jbool b => a == b
  | JVal.jint a, JVal.jint b => a == b
  | JVal.jnumLit a, JVal.jnumLit b => a == b
  | JVal.jstr a, JVal.jstr b => a == b
  | JVal.jarr a, JVal.jarr b => jvalBeqList a b
  | JVal.jobj a, JVal.jobj b => jvalBeqFields a b
  | _, _ => false

def jvalBeqList : List JVal → List JVal → Bool
  | [], [] => true
  | a :: as1, b :: bs1 => jvalBeq a b && jvalBeqList as1 bs1
  | _, _ => false

def jvalBeqFields : List (String × JVal) → List (String × JVal) → Bool
  | [], [] => true
  | (k, a) :: as1, (l, b) :: bs1 => k == l && jvalBeq a b && jvalBeqFields as1 bs1
  | _, _ => false

end

instance : BEq JVal := ⟨jvalBeq⟩

/-- Does the character list `s` begin with `pat`? -/
def beginsWith : List Char → List Char → Bool
  | [], _ => true
  | _ :: _, [] => false
  | p :: ps, c :: cs => p == c && beginsWith ps cs

/-- Does `pat` occur as a contiguous run inside `s`? -/
def containsSeq (pat : List Char) : List Char → Bool
  | [] => beginsWith pat []
  | c :: cs => beginsWith pat (c :: cs) || containsSeq pat cs

/-- Substring test (`pat in s` on Python strings). -/
def strContains (s pat : String) : Bool := containsSeq pat.data s.data

/-- Python `str.lower()` (the error texts are ASCII). -/
def strLower (s : String) : String := String.mk (s.data.map Char.toLower)

/-! ## Rate-limited worker pool — `core/generators/generator.py`

A line of a JSONL file is modelled by its `json.loads` outcome: `some record`
when the line parses as a JSON object, `none` when `json.JSONDecodeError` is
raised. -/

abbrev JsonLine := Option Entry

/-- `GenerationEngine._load_processed_ids`: scan every line of the existing
output file, collect `record["bundle_id"]` for every parsed record that has a
top-level `"bundle_id"` field, skip unparseable lines.  (The Python set of
collected values is modelled as a list; membership is what the caller uses.)
An absent output file gives the empty set. -/
def load_processed_ids (outFileExists : Bool) (outLines : List JsonLine) : List JVal :=
  if outFileExists then
    outLines.foldl (fun acc l =>
      match l with
      | some record =>
          match lookupKey record "bundle_id" with
          | some v => acc ++ [v]
          | none => acc
      | none => acc) []
  else []

/-- `json.loads(line).get("bundle_id", f"row_{idx}")` — the identifier the
work-queue filter of `generate_all` compares against the processed set. -/
def lineResumeId (b : Entry) (idx : Nat) : JVal :=
  (lookupKey b "bundle_id").getD (JVal.jstr ("row_" ++ natStr idx))

/-- The work-item filter loop of `GenerationEngine.generate_all`:
`for idx, line in enumerate(lines, start=1)`, keep `(line, idx)` when the
line parses and its resume id is not in the processed set; a parse error
skips the line.  (We keep the parsed record instead of the raw line: only
parseable lines survive, and the worker re-parses the same line.) -/
def workQueueGo (processed : List JVal) : List JsonLine → Nat → List (Entry × Nat)
  | [], _ => []
  | none :: rest, idx => workQueueGo processed rest (idx + 1)
  | some b :: rest, idx =>
      if processed.contains (lineResumeId b idx) then workQueueGo processed rest (idx + 1)
      else (b, idx) :: workQueueGo processed rest (idx + 1)

/-- `generate_all` work-queue construction: read all lines, apply the `limit`
slice when a (truthy) limit is given, then filter by the processed set. -/
def workQueue (processed : List JVal) (lines : List JsonLine) (limit : Option Nat) :
    List (Entry × Nat) :=
  let ls := match limit with
    | some n => lines.take n
    | none => lines
  workQueueGo processed ls 1

/-- The record `_process_single_bundle` appends on success:
`{"id": line_idx, "output": response}`. -/
def outputRecord (lineIdx : Nat) (response : String) : Entry :=
  [("id", JVal.jint lineIdx), ("output", JVal.jstr response)]

/-- The exact characters appended to the output file for one completed item:
`json.dumps(combined_record, ensure_ascii=False) + "\n"`. -/
def outputLine (lineIdx : Nat) (response : String) : List Char :=
  dumps (JVal.jobj (outputRecord lineIdx response)) ++ ['\n']

/-! ### `GenerationEngine._call_provider_with_retry`

The provider is an oracle mapping the attempt number to either a response
text or a raised error message; `time.sleep` is recorded as a trace of slept
durations (in seconds). -/

/-- Outcome of `_call_provider_with_retry`: the returned value or the raised
error message, together with the sleeps performed, in order. -/
inductive RetryResult where
  | ok (value : String) (delays : List Nat) : RetryResult
  | raised (msg : String) (delays : List Nat) : RetryResult
deriving Repr, DecidableEq

/-- `base_delay = 10` (seconds). -/
def base_delay : Nat := 10

/-- The `for attempt in range(retries)` loop: on success return; on an error
whose lowercased text contains `"429"`, `"quota"` or `"500"`, sleep
`base_delay * 2 ** attempt` and retry; otherwise if it contains `"500"` or
`"internal"`, sleep `2` and retry; otherwise re-raise.  Falling off the loop
raises `"Max retries exceeded"`. -/
def retryGo (provider : Nat → Except String String) :
    Nat → Nat → List Nat → RetryResult
  | 0, _, delays => RetryResult.raised "Max retries exceeded" delays
  | remaining + 1, attempt, delays =>
      match provider attempt with
      | Except.ok v => RetryResult.ok v delays
      | Except.error e =>
          let msg := strLower e
          if strContains msg "429" || strContains msg "quota" || strContains msg "500" then
            retryGo provider remaining (attempt + 1) (delays ++ [base_delay * 2 ^ attempt])
          else if strContains msg "500" || strContains msg "internal" then
            retryGo provider remaining (attempt + 1) (delays ++ [2])
          else RetryResult.raised e delays

/-- `_call_provider_with_retry(prompt, retries=3)`. -/
def call_provider_with_retry (provider : Nat → Except String String)
    (retries : Nat) : RetryResult :=
  retryGo provider retries 0 []

/-! ## Batch partitioner — `gemini_batch_processing/create_job.py` -/

/-- `self.MAX_TOKENS_PER_BATCH = 2_500_000`. -/
def MAX_TOKENS_PER_BATCH : Nat := 2500000

/-- `self.EST_TOKENS_PER_REQ = 650`. -/
def EST_TOKENS_PER_REQ : Nat := 650

/-- `self.MAX_REQS_PER_BATCH = self.MAX_TOKENS_PER_BATCH // self.EST_TOKENS_PER_REQ`. -/
def MAX_REQS_PER_BATCH : Nat := MAX_TOKENS_PER_BATCH / EST_TOKENS_PER_REQ

/-- `TextBatchJob` configuration relevant to partitioning: the per-run output
directory, the batch size bound (`MAX_REQS_PER_BATCH` on the real object), and
an oracle for `random.choice` over the loaded system instructions, indexed by
the ordinal (`total_processed`) of the request it is drawn for. -/
structure BatchConfig where
  output_dir : String
  maxReqs : Nat
  sysPick : Nat → String

/-- `TextBatchJob.prepare_prompt`: for every `(k, v)` item of the bundle where
`v` is a dict with a `"label"` field, emit the line
`f"{k.replace('_', ' ').title()}: {v['label']}"`, and join with newlines. -/
def prepare_prompt (bundle : Entry) : String :=
  String.intercalate "\n" (bundle.filterMap (fun kv =>
    match kv.2 with
    | JVal.jobj v =>
        if hasKey v "label" then
          some (pyTitle (kv.1.replace "_" " ") ++ ": " ++
            pyStr ((lookupKey v "label").getD JVal.jnull))
        else none
    | _ => none))

/-- The fixed `generationConfig` object of every request envelope. -/
def generationConfig : JVal :=
  JVal.jobj [("responseMimeType", JVal.jstr "text/plain"),
    ("temperature", JVal.jnumLit "0.2"),
    ("thinkingConfig", JVal.jobj [("includeThoughts", JVal.jbool true),
      ("thinkingBudget", JVal.jint 2048)])]

/-- One Batch API request envelope (`request_entry` in the source). -/
def mkRequestEntry (customId promptText sysText : String) : JVal :=
  JVal.jobj [("custom_id", JVal.jstr customId),
    ("request", JVal.jobj [
      ("contents", JVal.jarr [JVal.jobj [("parts",
        JVal.jarr [JVal.jobj [("text", JVal.jstr promptText)]])]]),
      ("system_instruction", JVal.jobj [("parts",
        JVal.jarr [JVal.jobj [("text", JVal.jstr sysText)]])]),
      ("generationConfig", generationConfig)])]

/-- `custom_id = str(bundle.get('id', f"req_{start_index + total_processed}"))`,
where `total_processed` has already been incremented for this line. -/
def customIdOf (bundle : Entry) (startIndex totalProcessed : Nat) : String :=
  match lookupKey bundle "id" with
  | some v => pyStr v
  | none => "req_" ++ natStr (startIndex + totalProcessed)

/-- Zero-pad to width three (`f"{n:03d}"` for naturals). -/
def pad3 (n : Nat) : String :=
  let s := natStr n
  if s.length < 3 then String.mk (List.replicate (3 - s.length) '0') ++ s else s

/-- `f"{self.output_dir}/batch_part_{batch_counter:03d}.jsonl"`. -/
def batchFilename (dir : String) (counter : Nat) : String :=
  dir ++ "/batch_part_" ++ pad3 counter ++ ".jsonl"

/-- A written batch file: its path and the envelopes it contains, one JSONL
line per envelope. -/
structure BatchFile where
  path : String
  reqs : List JVal
deriving Repr

/-- The line loop of `create_jsonl_batches`, over the lines left after the
`itertools.islice` skip.  State: `total_processed`, `batch_counter`, the
current batch, the files written so far.  A `JSONDecodeError` line is skipped
(`continue`) without touching any counter; a parsed line increments
`total_processed`, renders an envelope, and flushes the current batch once its
length reaches `maxReqs`.  Returns (files, current batch, total, counter). -/
def batchLoop (cfg : BatchConfig) (startIndex : Nat) :
    List JsonLine → Nat → Nat → List JVal → List BatchFile →
    List BatchFile × List JVal × Nat × Nat
  | [], total, counter, cur, files => (files, cur, total, counter)
  | none :: rest, total, counter, cur, files =>
      batchLoop cfg startIndex rest total counter cur files
  | some bundle :: rest, total, counter, cur, files =>
      let total' := total + 1
      let env := mkRequestEntry (customIdOf bundle startIndex total')
        (prepare_prompt bundle) (cfg.sysPick total')
      let cur' := cur ++ [env]
      if cur'.length ≥ cfg.maxReqs then
        batchLoop cfg startIndex rest total' (counter + 1) []
          (files ++ [⟨batchFilename cfg.output_dir counter, cur'⟩])
      else
        batchLoop cfg startIndex rest total' counter cur' files

/-- The value `create_jsonl_batches` gives back to its caller. -/
inductive JobResult where
  /-- `return False` — the input bundle file does not exist. -/
  | fileMissing : JobResult
  /-- `return None` — `total_processed == 0`, "No new records found". -/
  | noWork : JobResult
  /-- `return created_files, (start_index + total_processed)`. -/
  | created (files : List BatchFile) (newCursor : Nat) : JobResult
deriving Repr

/-- `TextBatchJob._get_start_index`: `0` when the cursor file is absent
(`none`) or its content is not an integer (`some none`). -/
def get_start_index : Option (Option Nat) → Nat
  | none => 0
  | some none => 0
  | some (some n) => n

/-- `TextBatchJob.create_jsonl_batches(input_file_path)`: read the cursor,
skip that many raw lines (`itertools.islice(infile, start_index, None)`), run
the envelope/batching loop, flush a trailing partial batch, and report. -/
def create_jsonl_batches (cfg : BatchConfig) (inputFileExists : Bool)
    (lines : List JsonLine) (startIndex : Nat) : JobResult :=
  if !inputFileExists then JobResult.fileMissing
  else
    let work := lines.drop startIndex
    match batchLoop cfg startIndex work 0 1 [] [] with
    | (files, cur, total, counter) =>
      let files' :=
        if cur.isEmpty then files
        else files ++ [⟨batchFilename cfg.output_dir counter, cur⟩]
      if total = 0 then JobResult.noWork
      else JobResult.created files' (startIndex + total)

/-! ### The sequential pipeline driver (`__main__` of `create_job.py`) -/

/-- Sequential submission: `submit_wait_download` per file (its success is an
oracle on the file path, the job being external); on the first failure the
loop logs and `break`s.  Returns the success count and the list of files
actually submitted, in order. -/
def runBatches (outcome : String → Bool) : List BatchFile → Nat × List String
  | [] => (0, [])
  | f :: fs =>
      if outcome f.path then
        match runBatches outcome fs with
        | (c, subs) => (c + 1, f.path :: subs)
      else (0, [f.path])

/-- What a full driver run leaves behind. -/
inductive DriverOutcome where
  /-- `result is None`: printed "No new data to process.", exited 0. -/
  | noData : DriverOutcome
  /-- `result` was `False`: unpacking it raises a `TypeError`. -/
  | crashed : DriverOutcome
  /-- The run submitted `submitted`, printed
  `f"... Processed {successCount}/{total} batches."` on partial failure, and
  left `cursorAfter` in the cursor file. -/
  | ran (submitted : List String) (successCount total : Nat) (cursorAfter : Nat) :
      DriverOutcome
deriving Repr, DecidableEq

/-- The `__main__` driver: partition, then submit the returned batch files
sequentially, stopping at the first failure; `_update_cursor(final_cursor_pos)`
runs only when `success_count == len(files)`, otherwise the cursor file keeps
its previous value. -/
def driver_main (cfg : BatchConfig) (inputFileExists : Bool) (lines : List JsonLine)
    (oldCursor : Nat) (outcome : String → Bool) : DriverOutcome :=
  match create_jsonl_batches cfg inputFileExists lines oldCursor with
  | JobResult.noWork => DriverOutcome.noData
  | JobResult.fileMissing => DriverOutcome.crashed
  | JobResult.created files newCursor =>
      match runBatches outcome files with
      | (sc, subs) =>
        DriverOutcome.ran subs sc files.length
          (if sc = files.length then newCursor else oldCursor)

/-! ## Bundle builder — `core/knowledge/bundle_builder.py`

`GenericAdapter.sample` mutates the taxonomy entry it is handed
(`entry_data["label"] = ...` when no label is present) and returns a wrapper
whose `"data"` field is that same dict.  `build_all` keeps re-sampling the
region and crop entry lists inside its loops, so the model threads the entry
lists through every loop explicitly and `build_all` returns both the emitted
bundles and the post-run state of the taxonomy snapshot. -/

/-- `entry_data.get("id", "Unknown")` — taxonomy entry ids are strings. -/
def idString (e : Entry) : String :=
  match lookupKey e "id" with
  | some (JVal.jstr s) => s
  | _ => "Unknown"

/-- The in-place mutation performed by `GenericAdapter.sample`:
`if "label" not in entry_data: entry_data["label"] =
entry_data.get("id", "Unknown").replace("_", " ").title()`
(a Python dict grows new keys at the end). -/
def ensureLabel (e : Entry) : Entry :=
  if hasKey e "label" then e
  else e ++ [("label", JVal.jstr (pyTitle ((idString e).replace "_" " ")))]

/-- The dict `GenericAdapter.sample` returns. -/
def sampleWrapped (group : String) (attrs : List String) (e : Entry) : Entry :=
  [("data", JVal.jobj (ensureLabel e)),
   ("schema_attributes", JVal.jarr (attrs.map JVal.jstr)),
   ("adapter_type", JVal.jstr "generic"),
   ("group", JVal.jstr group)]

/-- `adapter.sample(entry).get("data", entry)` as `build_all` reads it. -/
def sampleData (group : String) (attrs : List String) (e : Entry) : Entry :=
  match lookupKey (sampleWrapped group attrs e) "data" with
  | some (JVal.jobj d) => d
  | _ => e

/-- The state `sample` leaves in the taxonomy snapshot: the entry with its
label ensured. -/
def sampleEffect (e : Entry) : Entry := ensureLabel e

/-- `self.INDEPENDENT_AXES` — the declared independent axis order. -/
def INDEPENDENT_AXES : List String :=
  ["growth_stage", "weather", "soil_type", "farming_practice"]

/-- `self.DEPENDENT_GROUPS`. -/
def DEPENDENT_GROUPS : List String := ["crop", "region_lang"]

/-- An independent axis as collected from the taxonomy snapshot: its group
name, its schema attributes, and its entries in declared order.  `build_all`
only collects groups named in `INDEPENDENT_AXES` (missing ones are skipped
with a warning), so a well-formed state draws its group names from there. -/
structure Axis where
  group : String
  attrs : List String
  entries : List Entry

/-- The taxonomy snapshot as `build_all` sees it: the present independent
axes in `INDEPENDENT_AXES` order, and the `region_lang` and `crop` groups
(whose absence raises before any output, so the state carries them). -/
structure BState where
  indeps : List Axis
  regionAttrs : List String
  regions : List Entry
  cropAttrs : List String
  crops : List Entry

/-- `itertools.product(*lists)`: the leftmost list varies slowest. -/
def cartProd {α : Type} : List (List α) → List (List α)
  | [] => [[]]
  | xs :: rest => (xs.map (fun x => (cartProd rest).map (fun t => x :: t))).flatten

/-- `context_bundle = {}` filled by
`for group_name, data in indep_combo: context_bundle[group_name] = data`. -/
def contextBundle (combo : List (String × Entry)) : Entry :=
  combo.foldl (fun acc gv => setKey acc gv.1 (JVal.jobj gv.2)) []

/-- The innermost `for problem in problems_list` loop: clone the base bundle,
assign `id = count + 1`, attach the crop payload and the stress, emit, and
increment the count. -/
def procProblems (base cropPayload : Entry) : List JVal → Nat → List Entry × Nat
  | [], count => ([], count)
  | p :: ps, count =>
      let b := setKey (setKey (setKey base "id" (JVal.jint (count + 1)))
        "crop" (JVal.jobj cropPayload)) "stress" p
      match procProblems base cropPayload ps (count + 1) with
      | (bs, count') => (b :: bs, count')

/-- The `for crop_entry in crop_entries` loop: sample (mutating the stored
entry), skip a crop whose `problems` list is empty, strip `problems` from the
payload, and emit one bundle per problem.  Returns the bundles, the crop
entry list as left mutated, and the count. -/
def procCrops (base : Entry) (cropAttrs : List String) :
    List Entry → Nat → List Entry × List Entry × Nat
  | [], count => ([], [], count)
  | c :: cs, count =>
      let pc := sampleData "crop" cropAttrs c
      let c' := sampleEffect c
      let probs := getArr pc "problems"
      if probs.isEmpty then
        match procCrops base cropAttrs cs count with
        | (bs, cs', count') => (bs, c' :: cs', count')
      else
        let cp := if hasKey pc "problems" then delKey pc "problems" else pc
        match procProblems base cp probs count with
        | (bs1, count1) =>
          match procCrops base cropAttrs cs count1 with
          | (bs2, cs', count2) => (bs1 ++ bs2, c' :: cs', count2)

/-- The `for lang_entry in allowed_languages` loop: per language, build
`base_bundle` (context plus region payload plus language) and run the crop
loop, threading the crop entry list. -/
def procLangs (ctx regionPayload : Entry) (cropAttrs : List String) :
    List JVal → List Entry → Nat → List Entry × List Entry × Nat
  | [], crops, count => ([], crops, count)
  | lg :: lgs, crops, count =>
      let base := setKey (setKey ctx "region" (JVal.jobj regionPayload)) "language" lg
      match procCrops base cropAttrs crops count with
      | (bs1, crops1, count1) =>
        match procLangs ctx regionPayload cropAttrs lgs crops1 count1 with
        | (bs2, crops2, count2) => (bs1 ++ bs2, crops2, count2)

/-- The `for region_entry in region_entries` loop: sample (mutating the
stored entry), skip a region whose `languages` list is empty, strip
`languages` from the payload, and iterate its languages. -/
def procRegions (ctx : Entry) (regionAttrs cropAttrs : List String) :
    List Entry → List Entry → Nat → List Entry × List Entry × List Entry × Nat
  | [], crops, count => ([], [], crops, count)
  | r :: rs, crops, count =>
      let pr := sampleData "region_lang" regionAttrs r
      let r' := sampleEffect r
      let langs := getArr pr "languages"
      if langs.isEmpty then
        match procRegions ctx regionAttrs cropAttrs rs crops count with
        | (bs, rs', crops', count') => (bs, r' :: rs', crops', count')
      else
        let rp := if hasKey pr "languages" then delKey pr "languages" else pr
        match procLangs ctx rp cropAttrs langs crops count with
        | (bs1, crops1, count1) =>
          match procRegions ctx regionAttrs cropAttrs rs crops1 count1 with
          | (bs2, rs', crops2, count2) => (bs1 ++ bs2, r' :: rs', crops2, count2)

/-- The outer `for indep_combo in itertools.product(...)` loop. -/
def procCombos (regionAttrs cropAttrs : List String) :
    List (List (String × Entry)) → List Entry → List Entry → Nat →
    List Entry × List Entry × List Entry × Nat
  | [], regions, crops, count => ([], regions, crops, count)
  | combo :: more, regions, crops, count =>
      match procRegions (contextBundle combo) regionAttrs cropAttrs regions crops count with
      | (bs1, regions1, crops1, count1) =>
        match procCombos regionAttrs cropAttrs more regions1 crops1 count1 with
        | (bs2, regions2, crops2, count2) => (bs1 ++ bs2, regions2, crops2, count2)

/-- The axis-collection loop: every independent entry is sampled once,
producing `current_axis_values = [(group_name, real_data), ...]`. -/
def collectAxis (ax : Axis) : List (String × Entry) :=
  ax.entries.map (fun e => (ax.group, sampleData ax.group ax.attrs e))

/-- The mutation axis collection leaves on the snapshot. -/
def mutateAxis (ax : Axis) : Axis :=
  ⟨ax.group, ax.attrs, ax.entries.map sampleEffect⟩

/-- `BundleBuilder.build_all`: collect the independent axes, expand the
product, run the hybrid region→language→crop→problem loop with `count = 0`,
and return the emitted bundles together with the mutated snapshot. -/
def build_all (st : BState) : List Entry × BState :=
  let axesData := st.indeps.map collectAxis
  let combos := cartProd axesData
  match procCombos st.regionAttrs st.cropAttrs combos st.regions st.crops 0 with
  | (bs, regions', crops', _) =>
    (bs, ⟨st.indeps.map mutateAxis, st.regionAttrs, regions', st.cropAttrs, crops'⟩)

/-- The lines written to the bundle file:
`f.write(json.dumps(final_bundle, ensure_ascii=False) + "\n")` per bundle. -/
def build_lines (st : BState) : List (List Char) :=
  (build_all st).1.map (fun b => dumps (JVal.jobj b) ++ ['\n'])

/-- The count `build_all` prints and implicitly returns. -/
def build_count (st : BState) : Nat := (build_all st).1.length

/-! ## Dictionary lemmas -/

theorem lookupKey_setKey_self (e : Entry) (k : String) (v : JVal) :
    lookupKey (setKey e k v) k = some v := by
  induction e with
  | nil => simp [setKey, lookupKey]
  | cons kv fs ih =>
      obtain ⟨k1, w⟩ := kv
      by_cases h : k1 = k
      · simp [setKey, lookupKey, h]
      · simp [setKey, lookupKey, h, ih]

theorem lookupKey_setKey_ne (e : Entry) (k k' : String) (v : JVal) (h : k' ≠ k) :
    lookupKey (setKey e k v) k' = lookupKey e k' := by
  induction e with
  | nil => simp [setKey, lookupKey, Ne.symm h]
  | cons kv fs ih =>
      obtain ⟨k1, w⟩ := kv
      by_cases h1 : k1 = k
      · subst h1
        simp [setKey, lookupKey, Ne.symm h]
      · by_cases h2 : k1 = k'
        · simp [setKey, lookupKey, h1, h2, h]
        · simp [setKey, lookupKey, h1, h2, ih]

theorem hasKey_setKey_ne (e : Entry) (k k' : String) (v : JVal) (h : k' ≠ k) :
    hasKey (setKey e k v) k' = hasKey e k' := by
  simp [hasKey, lookupKey_setKey_ne e k k' v h]

theorem lookupKey_delKey_self (e : Entry) (k : String) :
    lookupKey (delKey e k) k = none := by
  induction e with
  | nil => simp [delKey, lookupKey]
  | cons kv fs ih =>
      obtain ⟨k1, w⟩ := kv
      by_cases h : k1 = k
      · simp [delKey, h, ih]
      · simp [delKey, lookupKey, h, ih]

theorem hasKey_delKey_self (e : Entry) (k : String) :
    hasKey (delKey e k) k = false := by
  simp [hasKey, lookupKey_delKey_self]

theorem lookupKey_delKey_ne (e : Entry) (k k' : String) (h : k' ≠ k) :
    lookupKey (delKey e k) k' = lookupKey e k' := by
  induction e with
  | nil => simp [delKey]
  | cons kv fs ih =>
      obtain ⟨k1, w⟩ := kv
      by_cases h1 : k1 = k
      · subst h1
        simp [delKey, lookupKey, Ne.symm h, ih]
      · by_cases h2 : k1 = k'
        · simp [delKey, lookupKey, h1, h2, h]
        · simp [delKey, lookupKey, h1, h2, ih]

theorem lookupKey_append_of_none (a b : Entry) (k : String)
    (h : lookupKey a k = none) : lookupKey (a ++ b) k = lookupKey b k := by
  induction a with
  | nil => simp
  | cons kv fs ih =>
      obtain ⟨k1, w⟩ := kv
      by_cases h1 : k1 = k
      · simp [lookupKey, h1] at h
      · simp [lookupKey, h1] at h ⊢
        exact ih h

theorem lookupKey_append_of_some (a b : Entry) (k : String) (v : JVal)
    (h : lookupKey a k = some v) : lookupKey (a ++ b) k = some v := by
  induction a with
  | nil => simp [lookupKey] at h
  | cons kv fs ih =>
      obtain ⟨k1, w⟩ := kv
      by_cases h1 : k1 = k
      · simp [lookupKey, h1] at h ⊢
        exact h
      · simp [lookupKey, h1] at h ⊢
        exact ih h

/-! ## `ensureLabel` lemmas -/

theorem hasKey_ensureLabel_label (e : Entry) :
    hasKey (ensureLabel e) "label" = true := by
  by_cases h : hasKey e "label"
  · simp [ensureLabel, h]
  · have hnone : lookupKey e "label" = none := by
      cases hv : lookupKey e "label" with
      | none => rfl
      | some v => simp [hasKey, hv] at h
    simp only [ensureLabel, h, Bool.false_eq_true, if_false]
    simp [hasKey, lookupKey_append_of_none _ _ _ hnone, lookupKey]

theorem ensureLabel_idem (e : Entry) :
    ensureLabel (ensureLabel e) = ensureLabel e := by
  have h := hasKey_ensureLabel_label e
  rw [ensureLabel]
  simp [h]

theorem lookupKey_ensureLabel_ne (e : Entry) (k : String) (h : k ≠ "label") :
    lookupKey (ensureLabel e) k = lookupKey e k := by
  unfold ensureLabel
  by_cases hl : hasKey e "label"
  · simp [hl]
  · simp only [hl, Bool.false_eq_true, if_false]
    cases hv : lookupKey e k with
    | some v => exact lookupKey_append_of_some _ _ _ _ hv
    | none =>
        rw [lookupKey_append_of_none _ _ _ hv]
        simp [lookupKey, Ne.symm h]

theorem getArr_ensureLabel (e : Entry) (k : String) (h : k ≠ "label") :
    getArr (ensureLabel e) k = getArr e k := by
  simp [getArr, lookupKey_ensureLabel_ne e k h]

theorem sampleData_eq (g : String) (a : List String) (e : Entry) :
    sampleData g a e = ensureLabel e := by
  simp [sampleData, sampleWrapped, lookupKey]

/-! ## C1 — worker-pool resume -/

/-- The worker pool's own output file after it successfully appended the
records for bundle-file lines 1, 3 and 5: each line is
`{"id": k, "output": ...}` as `_process_single_bundle` writes it. -/
def c1PoolOutput : List JsonLine :=
  [some (outputRecord 1 "resp1"), some (outputRecord 3 "resp3"),
   some (outputRecord 5 "resp5")]

/-- A five-line work source whose records carry ids 1..5 (as the bundle
builder emits them: an integer `"id"`, no `"bundle_id"`). -/
def c1BundleLines : List JsonLine :=
  [some [("id", JVal.jint 1)], some [("id", JVal.jint 2)],
   some [("id", JVal.jint 3)], some [("id", JVal.jint 4)],
   some [("id", JVal.jint 5)]]

/-- **C1** (code bug): `_load_processed_ids` collects only top-level
`"bundle_id"` fields (the `"id"` fallback is commented out), while the
records the pool itself appends are `{"id": line_idx, "output": ...}` (the
`"bundle_id"` field of the record is commented out too).  Re-scanning an
output file holding the pool's own records for lines 1, 3 and 5 yields an
empty processed set, so the work queue over a five-line work source keeps
all five items, where the claim requires exactly {2, 4}; in particular the
id written by a prior successful append is not classified as processed. -/
theorem c1_resume_filter_broken :
    load_processed_ids true c1PoolOutput = [] ∧
    (workQueue (load_processed_ids true c1PoolOutput) c1BundleLines none).map
      (fun it => it.2) = [1, 2, 3, 4, 5] ∧
    ([1, 2, 3, 4, 5] : List Nat) ≠ [2, 4] := by
  refine ⟨rfl, rfl, by decide⟩

/-! ## C7 — retry policy -/

/-- A provider that raises an error marked `"internal"` once, then succeeds. -/
def c7Provider (n : Nat) : Except String String :=
  if n = 0 then Except.error "Internal error occurred" else Except.ok "answer"

/-- **C7** (counterexample): the claim says an error carrying any of the
markers — including `"internal"` — is retried after sleeping
`base_delay * 2 ** attempt` seconds; the code's `"internal"` branch sleeps a
fixed 2 seconds instead (`base_delay * 2 ** 0 = 10`). -/
theorem c7_counterexample :
    call_provider_with_retry c7Provider 3 = RetryResult.ok "answer" [2] ∧
    (2 : Nat) ≠ base_delay * 2 ^ 0 := by
  refine ⟨by decide, by decide⟩

/-- **C7** (amended): every error whose lowercased text contains `"429"`,
`"quota"` or `"500"` is retried after sleeping `base_delay * 2 ** attempt`
seconds, at any attempt of the loop; a provider failing twice with any such
markers then succeeding is retried exactly twice with strictly increasing
delays and its result is returned on the third attempt; an error containing
`"internal"` but none of those backs off a fixed 2 seconds and retries; any
other error is re-raised immediately with zero retries. -/
theorem c7_retry_policy :
    (∀ provider : Nat → Except String String,
     ∀ (r attempt : Nat) (delays : List Nat) (e : String),
      provider attempt = Except.error e →
      (strContains (strLower e) "429" || strContains (strLower e) "quota" ||
        strContains (strLower e) "500") = true →
      retryGo provider (r + 1) attempt delays =
        retryGo provider r (attempt + 1) (delays ++ [base_delay * 2 ^ attempt])) ∧
    (∀ provider : Nat → Except String String, ∀ e0 e1 v : String,
      provider 0 = Except.error e0 → provider 1 = Except.error e1 →
      provider 2 = Except.ok v →
      (strContains (strLower e0) "429" || strContains (strLower e0) "quota" ||
        strContains (strLower e0) "500") = true →
      (strContains (strLower e1) "429" || strContains (strLower e1) "quota" ||
        strContains (strLower e1) "500") = true →
      call_provider_with_retry provider 3 =
        RetryResult.ok v [base_delay * 2 ^ 0, base_delay * 2 ^ 1]) ∧
    (∀ provider : Nat → Except String String, ∀ e : String,
      provider 0 = Except.error e →
      strContains (strLower e) "429" = false → strContains (strLower e) "quota" = false →
      strContains (strLower e) "500" = false → strContains (strLower e) "internal" = false →
      call_provider_with_retry provider 3 = RetryResult.raised e []) ∧
    (∀ provider : Nat → Except String String, ∀ e v : String,
      provider 0 = Except.error e → provider 1 = Except.ok v →
      strContains (strLower e) "429" = false → strContains (strLower e) "quota" = false →
      strContains (strLower e) "500" = false → strContains (strLower e) "internal" = true →
      call_provider_with_retry provider 3 = RetryResult.ok v [2]) ∧
    base_delay * 2 ^ 0 < base_delay * 2 ^ 1 := by
  refine ⟨?_, ?_, ?_, ?_, by decide⟩
  · intro provider r attempt delays e h0 hm
    simp [retryGo, h0, hm]
  · intro provider e0 e1 v h0 h1 h2 m0 m1
    simp [call_provider_with_retry, retryGo, h0, h1, h2, m0, m1]
  · intro provider e h0 m1 m2 m3 m4
    simp [call_provider_with_retry, retryGo, h0, m1, m2, m3, m4]
  · intro provider e v h0 h1 m1 m2 m3 m4
    simp [call_provider_with_retry, retryGo, h0, h1, m1, m2, m3, m4]

/-- A provider failing twice with a `"429"` marker, then succeeding. -/
def c7Provider429 (n : Nat) : Except String String :=
  if n < 2 then Except.error "429 rate limited" else Except.ok "done"

/-- A provider failing once with a `"quota"` marker, then succeeding. -/
def c7ProviderQuota (n : Nat) : Except String String :=
  if n = 0 then Except.error "Quota exceeded" else Except.ok "q"

/-- A provider failing once with a `"500"` marker, then succeeding. -/
def c7Provider500 (n : Nat) : Except String String :=
  if n = 0 then Except.error "Error 500 from server" else Except.ok "s"

/-- A provider failing once with a non-retryable error. -/
def c7ProviderBad (n : Nat) : Except String String :=
  if n = 0 then Except.error "bad request" else Except.ok "x"

/-- Witness for `c7_retry_policy` at concrete providers: exponential backoff
steps for `"quota"`- and `"500"`-marked errors, the full `"429"` run, the
fail-fast run and the `"internal"` run. -/
theorem c7_retry_policy_witness :
    retryGo c7ProviderQuota (2 + 1) 0 [] =
      retryGo c7ProviderQuota 2 (0 + 1) ([] ++ [base_delay * 2 ^ 0]) ∧
    retryGo c7Provider500 (2 + 1) 0 [] =
      retryGo c7Provider500 2 (0 + 1) ([] ++ [base_delay * 2 ^ 0]) ∧
    call_provider_with_retry c7Provider429 3 =
      RetryResult.ok "done" [base_delay * 2 ^ 0, base_delay * 2 ^ 1] ∧
    call_provider_with_retry c7ProviderBad 3 = RetryResult.raised "bad request" [] ∧
    call_provider_with_retry c7Provider 3 = RetryResult.ok "answer" [2] ∧
    base_delay * 2 ^ 0 < base_delay * 2 ^ 1 := by
  refine ⟨c7_retry_policy.1 c7ProviderQuota 2 0 [] "Quota exceeded" rfl (by decide),
    c7_retry_policy.1 c7Provider500 2 0 [] "Error 500 from server" rfl (by decide),
    c7_retry_policy.2.1 c7Provider429 "429 rate limited" "429 rate limited" "done"
      rfl rfl rfl (by decide) (by decide),
    c7_retry_policy.2.2.1 c7ProviderBad "bad request" rfl
      (by decide) (by decide) (by decide) (by decide),
    c7_retry_policy.2.2.2.1 c7Provider "Internal error occurred" "answer" rfl rfl
      (by decide) (by decide) (by decide) (by decide),
    c7_retry_policy.2.2.2.2⟩

/-! ## C5 — no-work signalling -/

/-- How many of the lines remaining past the cursor parse as JSON. -/
def parsedPastCursor (lines : List JsonLine) (startIndex : Nat) : Nat :=
  (lines.drop startIndex).countP (fun l => l.isSome)

theorem batchLoop_total (cfg : BatchConfig) (s : Nat) :
    ∀ (ls : List JsonLine) (t c : Nat) (cur : List JVal) (files : List BatchFile),
      (batchLoop cfg s ls t c cur files).2.2.1 =
        t + ls.countP (fun l => l.isSome) := by
  intro ls
  induction ls with
  | nil => intro t c cur files; simp [batchLoop]
  | cons l rest ih =>
      intro t c cur files
      cases l with
      | none => simp [batchLoop, ih]
      | some bundle =>
          simp only [batchLoop]
          split
          · rw [ih]; simp [List.countP_cons]; omega
          · rw [ih]; simp [List.countP_cons]; omega

/-- The partitioner's own batch config (a fixed output dir; the real
`MAX_REQS_PER_BATCH`; a constant system-instruction pool of size 1, which
`random.choice` picks deterministically). -/
def c5Cfg : BatchConfig := ⟨"output/run", MAX_REQS_PER_BATCH, fun _ => "sys"⟩

/-- **C5** (counterexample): a bundle file whose only new line is malformed
produces exactly the same `None` return as a bundle file with no new line at
all — the two outcomes the claim requires to be distinguishable are
identical. -/
theorem c5_counterexample :
    create_jsonl_batches c5Cfg true [none] 0 = JobResult.noWork ∧
    create_jsonl_batches c5Cfg true [] 0 = JobResult.noWork :=
  ⟨rfl, rfl⟩

/-- **C5** (amended): `create_jsonl_batches` returns the distinct non-error
`None` sentinel exactly when zero lines past the cursor parsed — both when
no new line exists and when every new line is malformed (malformed lines are
skipped, never fatal); the sentinel is observable, distinct from the
file-missing `False` and from the created-files return, but it does not
distinguish "no new lines" from "only malformed new lines". -/
theorem c5_no_work_sentinel (cfg : BatchConfig) (lines : List JsonLine)
    (startIndex : Nat) :
    (create_jsonl_batches cfg true lines startIndex = JobResult.noWork ↔
      parsedPastCursor lines startIndex = 0) ∧
    JobResult.noWork ≠ JobResult.fileMissing ∧
    ∀ files cur, JobResult.noWork ≠ JobResult.created files cur := by
  refine ⟨?_, by simp, by intro files cur; simp⟩
  have htot := batchLoop_total cfg startIndex (lines.drop startIndex) 0 1 [] []
  have hc : create_jsonl_batches cfg true lines startIndex =
      (match batchLoop cfg startIndex (lines.drop startIndex) 0 1 [] [] with
       | (files, cur, total, counter) =>
          let files' := if cur.isEmpty then files
            else files ++ [⟨batchFilename cfg.output_dir counter, cur⟩]
          if total = 0 then JobResult.noWork
          else JobResult.created files' (startIndex + total)) := rfl
  unfold parsedPastCursor
  rcases hb : batchLoop cfg startIndex (lines.drop startIndex) 0 1 [] [] with
    ⟨files, cur, total, counter⟩
  rw [hb] at htot hc
  simp only at htot
  rw [hc]
  by_cases h0 : total = 0
  · simp only [h0, if_true]
    constructor
    · intro _; omega
    · intro _; trivial
  · simp only [h0, if_false]
    constructor
    · intro hcontra
      simp at hcontra
    · intro hcount
      omega

/-- Witness for `c5_no_work_sentinel` at a concrete config and input. -/
theorem c5_no_work_sentinel_witness :
    (create_jsonl_batches c5Cfg true [none] 0 = JobResult.noWork ↔
      parsedPastCursor [none] 0 = 0) ∧
    JobResult.noWork ≠ JobResult.fileMissing ∧
    ∀ files cur, JobResult.noWork ≠ JobResult.created files cur :=
  c5_no_work_sentinel c5Cfg [none] 0

/-! ## C10 — output record shape -/

theorem digitChar_ne_newline : ∀ n, n < 10 → digitChar n ≠ '\n' := by decide

theorem hexDigit_ne_newline : ∀ n, n < 16 → hexDigit n ≠ '\n' := by decide

theorem natCharsGo_ne_newline (fuel : Nat) :
    ∀ (n : Nat) (x : Char), x ∈ natCharsGo fuel n → x ≠ '\n' := by
  induction fuel with
  | zero => intro n x hx; simp [natCharsGo] at hx
  | succ fuel ih =>
      intro n x hx
      by_cases h : n < 10
      · simp [natCharsGo, h] at hx
        subst hx
        exact digitChar_ne_newline n h
      · simp only [natCharsGo, h, if_false, List.mem_append] at hx
        rcases hx with hx | hx
        · exact ih (n / 10) x hx
        · simp at hx
          subst hx
          exact digitChar_ne_newline _ (Nat.mod_lt _ (by omega))

theorem intChars_ne_newline (n : Int) (x : Char) (hx : x ∈ intChars n) :
    x ≠ '\n' := by
  cases n with
  | ofNat m => exact natCharsGo_ne_newline _ _ _ hx
  | negSucc m =>
      simp only [intChars, List.mem_cons] at hx
      rcases hx with hx | hx
      · subst hx; decide
      · exact natCharsGo_ne_newline _ _ _ hx

theorem escChar_ne_newline (c x : Char) (hx : x ∈ escChar c) : x ≠ '\n' := by
  unfold escChar at hx
  split at hx
  · simp at hx; rcases hx with rfl | rfl <;> decide
  · split at hx
    · simp at hx; subst hx; decide
    · split at hx
      · simp at hx; rcases hx with rfl | rfl <;> decide
      · split at hx
        · simp at hx; rcases hx with rfl | rfl <;> decide
        · split at hx
          · simp at hx; rcases hx with rfl | rfl <;> decide
          · split at hx
            · simp at hx; rcases hx with rfl | rfl <;> decide
            · split at hx
              · simp at hx; rcases hx with rfl | rfl <;> decide
              · split at hx
                · rename_i hlt
                  simp only [List.mem_cons] at hx
                  rcases hx with rfl | rfl | rfl | rfl | rfl | rfl | hx
                  · decide
                  · decide
                  · decide
                  · decide
                  · exact hexDigit_ne_newline _ (Nat.div_lt_of_lt_mul (by omega))
                  · exact hexDigit_ne_newline _ (Nat.mod_lt _ (by omega))
                  · simp at hx
                · rename_i hge
                  simp only [List.mem_singleton] at hx
                  subst hx
                  intro hc
                  subst hc
                  exact hge (by decide)

theorem foldrEsc_ne_newline (l : List Char) (x : Char)
    (hx : x ∈ l.foldr (fun c acc => escChar c ++ acc) [qmark]) : x ≠ '\n' := by
  induction l with
  | nil =>
      simp at hx
      subst hx
      decide
  | cons c cs ih =>
      simp only [List.foldr_cons, List.mem_append] at hx
      rcases hx with hx | hx
      · exact escChar_ne_newline c x hx
      · exact ih hx

theorem dumpStr_ne_newline (s : String) (x : Char) (hx : x ∈ dumpStr s) :
    x ≠ '\n' := by
  unfold dumpStr at hx
  rcases List.mem_cons.mp hx with hx | hx
  · subst hx; decide
  · exact foldrEsc_ne_newline _ _ hx

/-- The serialized output record contains no raw newline character. -/
theorem outputRecord_dumps_ne_newline (idx : Nat) (resp : String) (x : Char)
    (hx : x ∈ dumps (JVal.jobj (outputRecord idx resp))) : x ≠ '\n' := by
  simp only [outputRecord, dumps, dumpsFields, List.mem_append, List.mem_cons,
    List.mem_singleton] at hx
  casesm* _ ∨ _
  all_goals
    first
      | exact dumpStr_ne_newline _ _ (by assumption)
      | exact intChars_ne_newline _ _ (by assumption)
      | (rename_i h; subst h; decide)
      | simp_all

theorem workQueueGo_mem_get (processed : List JVal) :
    ∀ (ls : List JsonLine) (k : Nat) (b : Entry) (idx : Nat),
      (b, idx) ∈ workQueueGo processed ls k →
      k ≤ idx ∧ ls[idx - k]? = some (some b) := by
  intro ls
  induction ls with
  | nil => intro k b idx hmem; simp [workQueueGo] at hmem
  | cons l rest ih =>
      intro k b idx hmem
      have step : ∀ (hm : (b, idx) ∈ workQueueGo processed rest (k + 1)),
          k ≤ idx ∧ (l :: rest)[idx - k]? = some (some b) := by
        intro hm
        obtain ⟨hk, hget⟩ := ih (k + 1) b idx hm
        refine ⟨by omega, ?_⟩
        have hi : idx - k = (idx - (k + 1)) + 1 := by omega
        rw [hi, List.getElem?_cons_succ]
        exact hget
      cases l with
      | none => exact step (by simpa [workQueueGo] using hmem)
      | some b1 =>
          simp only [workQueueGo] at hmem
          split at hmem
          · exact step hmem
          · rcases List.mem_cons.mp hmem with hmem | hmem
            · injection hmem with h1 h2
              subst h1; subst h2
              simp
            · exact step hmem

/-- **C10**: every work item `(b, idx)` queued by `generate_all` carries the
1-based index of its line within the bundle file as read this run
(`lines[idx - 1]` is that very line), and the record the worker appends for
it on success is `{"id": idx, "output": response}` — the `id` is the line
index, not any identifier stored inside the bundle — serialized as exactly
one JSON line (a single trailing newline and none embedded). -/
theorem c10_output_record (processed : List JVal) (lines : List JsonLine)
    (limit : Option Nat) (b : Entry) (idx : Nat) (resp : String)
    (hmem : (b, idx) ∈ workQueue processed lines limit) :
    1 ≤ idx ∧ lines[idx - 1]? = some (some b) ∧
    lookupKey (outputRecord idx resp) "id" = some (JVal.jint idx) ∧
    lookupKey (outputRecord idx resp) "output" = some (JVal.jstr resp) ∧
    outputLine idx resp = dumps (JVal.jobj (outputRecord idx resp)) ++ ['\n'] ∧
    (outputLine idx resp).count '\n' = 1 := by
  have hbase : 1 ≤ idx ∧ lines[idx - 1]? = some (some b) := by
    unfold workQueue at hmem
    cases limit with
    | none => exact workQueueGo_mem_get processed lines 1 b idx hmem
    | some n =>
        obtain ⟨hk, hget⟩ := workQueueGo_mem_get processed (lines.take n) 1 b idx hmem
        refine ⟨hk, ?_⟩
        rw [List.getElem?_take] at hget
        split at hget
        · exact hget
        · exact Option.noConfusion hget
  refine ⟨hbase.1, hbase.2, rfl, rfl, rfl, ?_⟩
  have hnot : '\n' ∉ dumps (JVal.jobj (outputRecord idx resp)) := by
    intro hmem2
    exact outputRecord_dumps_ne_newline idx resp _ hmem2 rfl
  unfold outputLine
  rw [List.count_append]
  rw [List.count_eq_zero.mpr hnot]
  simp

/-- A bundle carrying both a `bundle_id` and its own interior `id`, distinct
from its line position. -/
def c10Bundle : Entry := [("bundle_id", JVal.jstr "b7"), ("id", JVal.jint 99)]

/-- Witness for `c10_output_record`: one-line bundle file, line index 1
(distinct from the bundle's interior ids). -/
theorem c10_output_record_witness :
    1 ≤ 1 ∧ ([some c10Bundle] : List JsonLine)[1 - 1]? = some (some c10Bundle) ∧
    lookupKey (outputRecord 1 "resp") "id" = some (JVal.jint 1) ∧
    lookupKey (outputRecord 1 "resp") "output" = some (JVal.jstr "resp") ∧
    outputLine 1 "resp" = dumps (JVal.jobj (outputRecord 1 "resp")) ++ ['\n'] ∧
    (outputLine 1 "resp").count '\n' = 1 :=
  c10_output_record [] [some c10Bundle] none c10Bundle 1 "resp"
    (by simp [workQueue, workQueueGo, lineResumeId, c10Bundle, lookupKey])

/-! ## C6 — batch size bound -/

theorem batchLoop_sizes (cfg : BatchConfig) (s : Nat) (hM : 1 ≤ cfg.maxReqs) :
    ∀ (ls : List JsonLine) (t c : Nat) (cur : List JVal) (files : List BatchFile),
      cur.length < cfg.maxReqs →
      (∀ f ∈ files, f.reqs.length = cfg.maxReqs) →
      (∀ f ∈ (batchLoop cfg s ls t c cur files).1, f.reqs.length = cfg.maxReqs) ∧
      (batchLoop cfg s ls t c cur files).2.1.length < cfg.maxReqs := by
  intro ls
  induction ls with
  | nil =>
      intro t c cur files hcur hfiles
      exact ⟨hfiles, hcur⟩
  | cons l rest ih =>
      intro t c cur files hcur hfiles
      cases l with
      | none => exact ih t c cur files hcur hfiles
      | some bundle =>
          simp only [batchLoop]
          split
          · rename_i hfull
            have hexact : (cur ++ [mkRequestEntry (customIdOf bundle s (t + 1))
                (prepare_prompt bundle) (cfg.sysPick (t + 1))]).length = cfg.maxReqs := by
              simp only [List.length_append, List.length_singleton] at hfull ⊢
              omega
            refine ih (t + 1) (c + 1) [] _ (by simpa using hM) ?_
            intro f hf
            rcases List.mem_append.mp hf with hf | hf
            · exact hfiles f hf
            · simp only [List.mem_singleton] at hf
              subst hf
              exact hexact
          · rename_i hnotfull
            refine ih (t + 1) c _ files ?_ hfiles
            simp only [List.length_append, List.length_singleton] at hnotfull ⊢
            omega

/-- **C6**: no batch file produced by `create_jsonl_batches` holds more than
`MAX_REQS_PER_BATCH = MAX_TOKENS_PER_BATCH // EST_TOKENS_PER_REQ` request
envelopes; a batch is flushed exactly upon reaching the bound, so every file
except possibly the final trailing one holds exactly `MAX_REQS_PER_BATCH`. -/
theorem c6_batch_size_bound (cfg : BatchConfig)
    (hM : cfg.maxReqs = MAX_REQS_PER_BATCH) (inputFileExists : Bool)
    (lines : List JsonLine) (startIndex newCursor : Nat) (files : List BatchFile)
    (hres : create_jsonl_batches cfg inputFileExists lines startIndex =
      JobResult.created files newCursor) :
    MAX_REQS_PER_BATCH = MAX_TOKENS_PER_BATCH / EST_TOKENS_PER_REQ ∧
    (∀ f ∈ files, f.reqs.length ≤ MAX_REQS_PER_BATCH) ∧
    (∀ f ∈ files.dropLast, f.reqs.length = MAX_REQS_PER_BATCH) := by
  refine ⟨rfl, ?_⟩
  have hM1 : 1 ≤ cfg.maxReqs := by rw [hM]; decide
  cases inputFileExists with
  | false => simp [create_jsonl_batches] at hres
  | true =>
      have hc : create_jsonl_batches cfg true lines startIndex =
          (match batchLoop cfg startIndex (lines.drop startIndex) 0 1 [] [] with
           | (files0, cur, total, counter) =>
              let files' := if cur.isEmpty then files0
                else files0 ++ [⟨batchFilename cfg.output_dir counter, cur⟩]
              if total = 0 then JobResult.noWork
              else JobResult.created files' (startIndex + total)) := rfl
      rw [hc] at hres
      have hsizes := batchLoop_sizes cfg startIndex hM1
        (lines.drop startIndex) 0 1 [] [] (by simpa using hM1) (by simp)
      rcases hb : batchLoop cfg startIndex (lines.drop startIndex) 0 1 [] [] with
        ⟨files0, cur, total, counter⟩
      rw [hb] at hres hsizes
      simp only at hres hsizes
      obtain ⟨hflushed, hcur⟩ := hsizes
      by_cases h0 : total = 0
      · simp [h0] at hres
      · simp only [h0, if_false] at hres
        injection hres with hfiles hcursor
        subst hfiles
        by_cases hemp : cur.isEmpty
        · simp only [hemp, if_true]
          constructor
          · intro f hf
            rw [hM] at hflushed
            exact Nat.le_of_eq (hflushed f hf)
          · intro f hf
            rw [hM] at hflushed
            exact hflushed f (List.dropLast_subset _ hf)
        · rw [Bool.not_eq_true] at hemp
          simp only [hemp, Bool.false_eq_true, if_false]
          constructor
          · intro f hf
            rcases List.mem_append.mp hf with hf | hf
            · rw [hM] at hflushed
              exact Nat.le_of_eq (hflushed f hf)
            · simp only [List.mem_singleton] at hf
              subst hf
              rw [hM] at hcur
              exact Nat.le_of_lt hcur
          · intro f hf
            rw [List.dropLast_concat] at hf
            rw [hM] at hflushed
            exact hflushed f hf

/-- Witness for `c6_batch_size_bound`: the real config on a two-line file. -/
theorem c6_batch_size_bound_witness :
    MAX_REQS_PER_BATCH = MAX_TOKENS_PER_BATCH / EST_TOKENS_PER_REQ ∧
    (∀ f ∈ [(⟨batchFilename "output/run" 1,
        [mkRequestEntry (pyStr (JVal.jint 1)) (prepare_prompt [("id", JVal.jint 1)]) "sys",
         mkRequestEntry (pyStr (JVal.jint 2)) (prepare_prompt [("id", JVal.jint 2)]) "sys"]⟩ :
        BatchFile)], f.reqs.length ≤ MAX_REQS_PER_BATCH) ∧
    (∀ f ∈ ([(⟨batchFilename "output/run" 1,
        [mkRequestEntry (pyStr (JVal.jint 1)) (prepare_prompt [("id", JVal.jint 1)]) "sys",
         mkRequestEntry (pyStr (JVal.jint 2)) (prepare_prompt [("id", JVal.jint 2)]) "sys"]⟩ :
        BatchFile)] : List BatchFile).dropLast, f.reqs.length = MAX_REQS_PER_BATCH) :=
  c6_batch_size_bound c5Cfg rfl true
    [some [("id", JVal.jint 1)], some [("id", JVal.jint 2)]] 0 2 _ rfl

/-! ## C4 — partitioner cursor arithmetic -/

def c4Bundle : Entry := [("id", JVal.jint 1)]

def c4Cfg : BatchConfig := ⟨"output/run4", MAX_REQS_PER_BATCH, fun _ => "sys"⟩

/-- The envelope rendered for `c4Bundle` (its `custom_id` comes from the
bundle's own integer id, so it is the same on every run that reads it). -/
def c4Env : JVal :=
  mkRequestEntry (pyStr (JVal.jint 1)) (prepare_prompt c4Bundle) "sys"

/-- **C4** (code bug): with a malformed first line and a valid second line,
the run from cursor 0 reads both lines (2 lines consumed) but returns cursor
`0 + 1`, because `total_processed` counts only lines that parsed; the
`itertools.islice` skip on the next run then skips just the malformed line,
re-reads the valid line, and produces a duplicate envelope for it. -/
theorem c4_cursor_miscount :
    create_jsonl_batches c4Cfg true [none, some c4Bundle] 0 =
      JobResult.created [⟨batchFilename "output/run4" 1, [c4Env]⟩] 1 ∧
    ([none, some c4Bundle] : List JsonLine).length = 2 ∧
    create_jsonl_batches c4Cfg true [none, some c4Bundle] 1 =
      JobResult.created [⟨batchFilename "output/run4" 1, [c4Env]⟩] 2 := by
  refine ⟨rfl, rfl, rfl⟩

/-! ## C2 — partial-pipeline failure -/

theorem batchLoop_append (cfg : BatchConfig) (s : Nat) (l1 l2 : List JsonLine) :
    ∀ (t c : Nat) (cur : List JVal) (files : List BatchFile),
      batchLoop cfg s (l1 ++ l2) t c cur files =
        (match batchLoop cfg s l1 t c cur files with
         | (files1, cur1, t1, c1) => batchLoop cfg s l2 t1 c1 cur1 files1) := by
  induction l1 with
  | nil => intro t c cur files; simp [batchLoop]
  | cons l rest ih =>
      intro t c cur files
      cases l with
      | none =>
          simp only [List.cons_append, batchLoop]
          exact ih t c cur files
      | some bundle =>
          simp only [List.cons_append, batchLoop]
          split
          · exact ih _ _ _ _
          · exact ih _ _ _ _

theorem batchLoop_replicate_fill (cfg : BatchConfig) (s : Nat) (b : Entry) (E : JVal)
    (henv : ∀ t, mkRequestEntry (customIdOf b s t) (prepare_prompt b)
      (cfg.sysPick t) = E) :
    ∀ (n t c : Nat) (cur : List JVal) (files : List BatchFile),
      cur.length + n = cfg.maxReqs → 1 ≤ n →
      batchLoop cfg s (List.replicate n (some b)) t c cur files =
        (files ++ [⟨batchFilename cfg.output_dir c, cur ++ List.replicate n E⟩],
         [], t + n, c + 1) := by
  intro n
  induction n with
  | zero => intro t c cur files _ h2; omega
  | succ m ih =>
      intro t c cur files hsum _
      rw [List.replicate_succ]
      simp only [batchLoop, henv (t + 1)]
      cases m with
      | zero =>
          have hfull : (cur ++ [E]).length ≥ cfg.maxReqs := by
            simp only [List.length_append, List.length_singleton]
            omega
          rw [if_pos hfull]
          simp [batchLoop]
      | succ k =>
          have hnot : ¬ (cur ++ [E]).length ≥ cfg.maxReqs := by
            simp only [List.length_append, List.length_singleton]
            omega
          rw [if_neg hnot]
          rw [ih (t + 1) c (cur ++ [E]) files
            (by simp only [List.length_append, List.length_singleton]; omega)
            (by omega)]
          have harr : (cur ++ [E]) ++ List.replicate (k + 1) E =
              cur ++ List.replicate (k + 1 + 1) E := by
            rw [List.append_assoc]
            simp [List.replicate_succ]
          rw [harr]
          have ht : t + 1 + (k + 1) = t + (k + 1 + 1) := by omega
          rw [ht]

theorem batchLoop_replicate_under (cfg : BatchConfig) (s : Nat) (b : Entry) (E : JVal)
    (henv : ∀ t, mkRequestEntry (customIdOf b s t) (prepare_prompt b)
      (cfg.sysPick t) = E) :
    ∀ (n t c : Nat) (cur : List JVal) (files : List BatchFile),
      cur.length + n < cfg.maxReqs →
      batchLoop cfg s (List.replicate n (some b)) t c cur files =
        (files, cur ++ List.replicate n E, t + n, c) := by
  intro n
  induction n with
  | zero => intro t c cur files _; simp [batchLoop]
  | succ m ih =>
      intro t c cur files hlt
      rw [List.replicate_succ]
      simp only [batchLoop, henv (t + 1)]
      have hnot : ¬ (cur ++ [E]).length ≥ cfg.maxReqs := by
        simp only [List.length_append, List.length_singleton]
        omega
      rw [if_neg hnot]
      rw [ih (t + 1) c (cur ++ [E]) files
        (by simp only [List.length_append, List.length_singleton]; omega)]
      have harr : (cur ++ [E]) ++ List.replicate m E =
          cur ++ List.replicate (m + 1) E := by
        rw [List.append_assoc]
        simp [List.replicate_succ]
      rw [harr]
      have ht : t + 1 + m = t + (m + 1) := by omega
      rw [ht]

theorem runBatches_stop (outcome : String → Bool) :
    ∀ (files : List BatchFile) (k : Nat),
      k < files.length →
      (∀ j f, j < k → files[j]? = some f → outcome f.path = true) →
      (∀ f, files[k]? = some f → outcome f.path = false) →
      runBatches outcome files = (k, (files.take (k + 1)).map BatchFile.path) := by
  intro files
  induction files with
  | nil => intro k hk _ _; simp at hk
  | cons f fs ih =>
      intro k hk hsucc hfail
      cases k with
      | zero =>
          have hf := hfail f (by simp)
          simp [runBatches, hf]
      | succ m =>
          have hsf : outcome f.path = true := hsucc 0 f (by omega) (by simp)
          simp only [runBatches, hsf, if_true]
          rw [ih m (by simpa using hk)
            (fun j g hj hget => hsucc (j + 1) g (by omega) (by simpa using hget))
            (fun g hget => hfail g (by simpa using hget))]
          simp [List.take_succ_cons]

/-- The one-bundle-per-line input of the C2 scenario. -/
def c2Bundle : Entry := [("id", JVal.jint 1)]

def c2Cfg : BatchConfig := ⟨"output/j", MAX_REQS_PER_BATCH, fun _ => "sys"⟩

/-- The envelope every line of the C2 scenario renders to. -/
def c2Env : JVal := mkRequestEntry (pyStr (JVal.jint 1)) (prepare_prompt c2Bundle) "sys"

/-- The submission oracle of the C2 scenario: batch file 1 succeeds, every
other batch file fails. -/
def c2Outcome (p : String) : Bool := p == batchFilename "output/j" 1

theorem c2_env_const :
    ∀ t, mkRequestEntry (customIdOf c2Bundle 0 t) (prepare_prompt c2Bundle)
      (c2Cfg.sysPick t) = c2Env := fun _ => rfl

/-- `create_jsonl_batches` expressed through a precomputed `batchLoop`
result (the definition, with the resume skip already carried out). -/
theorem create_jsonl_batches_eq (cfg : BatchConfig) (lines : List JsonLine)
    (startIndex : Nat) (files0 : List BatchFile) (cur : List JVal)
    (total counter : Nat)
    (hb : batchLoop cfg startIndex (lines.drop startIndex) 0 1 [] [] =
      (files0, cur, total, counter)) :
    create_jsonl_batches cfg true lines startIndex =
      (if total = 0 then JobResult.noWork
       else JobResult.created
         (if cur.isEmpty then files0
          else files0 ++ [⟨batchFilename cfg.output_dir counter, cur⟩])
         (startIndex + total)) := by
  rw [create_jsonl_batches]
  simp only [Bool.not_true, Bool.false_eq_true, if_false]
  rw [hb]

/-- The partitioning step of the C2 scenario: 3847 identical one-bundle lines
split into one full batch of `MAX_REQS_PER_BATCH = 3846` envelopes and one
trailing batch of 1, with post-partition cursor 3847. -/
theorem c2_create_result :
    create_jsonl_batches c2Cfg true (List.replicate 3847 (some c2Bundle)) 0 =
      JobResult.created
        [⟨batchFilename "output/j" 1, List.replicate 3846 c2Env⟩,
         ⟨batchFilename "output/j" 2, [c2Env]⟩] 3847 := by
  have hsplit : List.replicate 3847 (some c2Bundle) =
      List.replicate 3846 (some c2Bundle) ++ List.replicate 1 (some c2Bundle) := by
    rw [← List.replicate_add]
  have hfill := batchLoop_replicate_fill c2Cfg 0 c2Bundle c2Env c2_env_const
    3846 0 1 [] [] (by decide) (by omega)
  have hunder := batchLoop_replicate_under c2Cfg 0 c2Bundle c2Env c2_env_const
    1 (0 + 3846) (1 + 1) []
    ([] ++ [⟨batchFilename c2Cfg.output_dir 1, [] ++ List.replicate 3846 c2Env⟩])
    (by decide)
  have hbl : batchLoop c2Cfg 0 (List.replicate 3847 (some c2Bundle)) 0 1 [] [] =
      ([⟨batchFilename "output/j" 1, List.replicate 3846 c2Env⟩],
       [c2Env], 3847, 2) := by
    rw [hsplit, batchLoop_append, hfill]
    exact hunder.trans (by rfl)
  have hbl0 : batchLoop c2Cfg 0
      ((List.replicate 3847 (some c2Bundle)).drop 0) 0 1 [] [] =
      ([⟨batchFilename "output/j" 1, List.replicate 3846 c2Env⟩],
       [c2Env], 3847, 2) := by
    rw [List.drop_zero]
    exact hbl
  rw [create_jsonl_batches_eq c2Cfg (List.replicate 3847 (some c2Bundle)) 0
    _ _ _ _ hbl0]
  rfl

/-- **C2** (counterexample): 3847 bundle lines partition into two batch
files (3846 + 1 envelopes); batch 1 succeeds, covering the first 3846 lines,
batch 2 fails.  The claim requires the persisted cursor to equal the
confirmed-successful prefix `0 + 3846`; the driver only writes the cursor
when every batch succeeded, so it remains 0. -/
theorem c2_counterexample :
    driver_main c2Cfg true (List.replicate 3847 (some c2Bundle)) 0 c2Outcome =
      DriverOutcome.ran
        [batchFilename "output/j" 1, batchFilename "output/j" 2] 1 2 0 ∧
    (0 : Nat) ≠ 3846 := by
  have h1 : c2Outcome (batchFilename "output/j" 1) = true := by decide
  have h2 : c2Outcome (batchFilename "output/j" 2) = false := by decide
  have hrb := runBatches_stop c2Outcome
      [⟨batchFilename "output/j" 1, List.replicate 3846 c2Env⟩,
       ⟨batchFilename "output/j" 2, [c2Env]⟩] 1 (by decide)
      (by
        intro j g hj hget
        have hj0 : j = 0 := by omega
        subst hj0
        simp only [List.getElem?_cons_zero, Option.some.injEq] at hget
        subst hget
        exact h1)
      (by
        intro g hget
        simp only [List.getElem?_cons_succ, List.getElem?_cons_zero,
          Option.some.injEq] at hget
        subst hget
        exact h2)
  rw [driver_main, c2_create_result]
  dsimp only
  rw [hrb]
  refine ⟨?_, by decide⟩
  rfl

/-- **C2** (amended): whenever `create_jsonl_batches` partitions the new work
into M batch files and batch k+1 fails after batches 1..k succeeded (k < M),
no batch after the failing one is submitted (exactly the first k+1 files
are, in order), the run reports k of M batches succeeded, and the persisted
cursor is NOT advanced to the successful prefix: it keeps its pre-run value,
so the entire un-confirmed range is re-partitioned on the next run; the
cursor moves to the post-partition position only when all M batches
succeed. -/
theorem c2_partial_failure (cfg : BatchConfig) (lines : List JsonLine)
    (oldCursor : Nat) (outcome : String → Bool) (files : List BatchFile)
    (newCursor : Nat) (k : Nat)
    (hcreate : create_jsonl_batches cfg true lines oldCursor =
      JobResult.created files newCursor)
    (hk : k < files.length)
    (hsucc : ∀ j f, j < k → files[j]? = some f → outcome f.path = true)
    (hfail : ∀ f, files[k]? = some f → outcome f.path = false) :
    driver_main cfg true lines oldCursor outcome =
      DriverOutcome.ran ((files.take (k + 1)).map BatchFile.path) k
        files.length oldCursor := by
  have hrb := runBatches_stop outcome files k hk hsucc hfail
  rw [driver_main, hcreate]
  dsimp only
  rw [hrb]
  dsimp only
  rw [if_neg (show ¬ k = files.length by omega)]

/-- Witness for `c2_partial_failure`: a one-file partition whose only batch
fails; the driver reports 0 of 1 and keeps the cursor at 0. -/
theorem c2_partial_failure_witness :
    driver_main c2Cfg true [some c2Bundle] 0 (fun _ => false) =
      DriverOutcome.ran
        ((([⟨batchFilename "output/j" 1, [c2Env]⟩] : List BatchFile).take 1).map
          BatchFile.path) 0 1 0 :=
  c2_partial_failure c2Cfg [some c2Bundle] 0 (fun _ => false)
    [⟨batchFilename "output/j" 1, [c2Env]⟩] 1 0 rfl (by simp)
    (fun j g hj _ => absurd hj (by omega)) (fun g _ => rfl)

/-! ## Bundle-builder lemmas: the shape of every emitted bundle -/

theorem hasKey_setKey_self (e : Entry) (k : String) (v : JVal) :
    hasKey (setKey e k v) k = true := by
  simp [hasKey, lookupKey_setKey_self]

theorem hasKey_foldl_setKey (combo : List (String × Entry)) :
    ∀ (acc : Entry) (k : String),
      hasKey (combo.foldl (fun a gv => setKey a gv.1 (JVal.jobj gv.2)) acc) k =
        (hasKey acc k || combo.any (fun gv => gv.1 = k)) := by
  induction combo with
  | nil => intro acc k; simp
  | cons gv rest ih =>
      intro acc k
      rw [List.foldl_cons, ih]
      by_cases hg : gv.1 = k
      · subst hg
        simp [hasKey_setKey_self]
      · simp [hasKey_setKey_ne _ _ _ _ (Ne.symm hg), hg]

theorem hasKey_contextBundle (combo : List (String × Entry)) (k : String) :
    hasKey (contextBundle combo) k = combo.any (fun gv => gv.1 = k) := by
  unfold contextBundle
  rw [hasKey_foldl_setKey]
  simp [hasKey, lookupKey]

/-- Membership in `itertools.product`: a combination picks one element from
each input list, in order. -/
theorem cartProd_mem {α : Type} :
    ∀ (ls : List (List α)) (combo : List α), combo ∈ cartProd ls →
      List.Forall₂ (fun l x => x ∈ l) ls combo := by
  intro ls
  induction ls with
  | nil =>
      intro combo hc
      simp [cartProd] at hc
      subst hc
      exact List.Forall₂.nil
  | cons xs rest ih =>
      intro combo hc
      simp only [cartProd, List.mem_flatten, List.mem_map] at hc
      obtain ⟨l, ⟨x, hx, rfl⟩, hcl⟩ := hc
      obtain ⟨t, ht, rfl⟩ := List.mem_map.mp hcl
      exact List.Forall₂.cons hx (ih t ht)

/-- The bundle constructed for one (context, region, language, crop, stress)
choice at count `m`. -/
def mkBundle (ctx rp : Entry) (lg : JVal) (m : Nat) (cp : Entry) (p : JVal) : Entry :=
  setKey (setKey (setKey (setKey (setKey ctx "region" (JVal.jobj rp))
    "language" lg) "id" (JVal.jint (m + 1))) "crop" (JVal.jobj cp)) "stress" p

theorem procProblems_mem (base cp : Entry) :
    ∀ (ps : List JVal) (n : Nat) (b : Entry), b ∈ (procProblems base cp ps n).1 →
      ∃ (p : JVal) (m : Nat),
        b = setKey (setKey (setKey base "id" (JVal.jint (m + 1)))
          "crop" (JVal.jobj cp)) "stress" p := by
  intro ps
  induction ps with
  | nil => intro n b hb; simp [procProblems] at hb
  | cons p rest ih =>
      intro n b hb
      simp only [procProblems] at hb
      rcases List.mem_cons.mp hb with h | h
      · exact ⟨p, n, h⟩
      · exact ih (n + 1) b h

theorem procCrops_mem (base : Entry) (ca : List String) :
    ∀ (cs : List Entry) (n : Nat) (b : Entry), b ∈ (procCrops base ca cs n).1 →
      ∃ (cp : Entry) (p : JVal) (m : Nat), hasKey cp "problems" = false ∧
        b = setKey (setKey (setKey base "id" (JVal.jint (m + 1)))
          "crop" (JVal.jobj cp)) "stress" p := by
  intro cs
  induction cs with
  | nil => intro n b hb; simp [procCrops] at hb
  | cons c rest ih =>
      intro n b hb
      simp only [procCrops] at hb
      split at hb
      · rcases hr : procCrops base ca rest n with ⟨bs, cs', cnt⟩
        rw [hr] at hb
        exact ih n b (by rw [hr]; exact hb)
      · rcases hp : procProblems base
            (if hasKey (sampleData "crop" ca c) "problems" then
              delKey (sampleData "crop" ca c) "problems"
            else sampleData "crop" ca c)
            (getArr (sampleData "crop" ca c) "problems") n with ⟨bs1, n1⟩
        rw [hp] at hb
        rcases hr : procCrops base ca rest n1 with ⟨bs2, cs', n2⟩
        rw [hr] at hb
        rcases List.mem_append.mp hb with h | h
        · obtain ⟨p, m, hb1⟩ := procProblems_mem base _ _ n b (by rw [hp]; exact h)
          refine ⟨_, p, m, ?_, hb1⟩
          by_cases hk : hasKey (sampleData "crop" ca c) "problems"
          · simp only [hk, if_true]
            exact hasKey_delKey_self _ _
          · simp only [hk, if_false]
            simp only [Bool.not_eq_true] at hk
            exact hk
        · exact ih n1 b (by rw [hr]; exact h)

theorem procLangs_mem (ctx rp : Entry) (ca : List String) :
    ∀ (lgs : List JVal) (cs : List Entry) (n : Nat) (b : Entry),
      b ∈ (procLangs ctx rp ca lgs cs n).1 →
      ∃ (lg : JVal) (cp : Entry) (p : JVal) (m : Nat),
        hasKey cp "problems" = false ∧ b = mkBundle ctx rp lg m cp p := by
  intro lgs
  induction lgs with
  | nil => intro cs n b hb; simp [procLangs] at hb
  | cons lg rest ih =>
      intro cs n b hb
      simp only [procLangs] at hb
      rcases hc : procCrops (setKey (setKey ctx "region" (JVal.jobj rp))
          "language" lg) ca cs n with ⟨bs1, cs1, n1⟩
      rw [hc] at hb
      rcases hl : procLangs ctx rp ca rest cs1 n1 with ⟨bs2, cs2, n2⟩
      rw [hl] at hb
      rcases List.mem_append.mp hb with h | h
      · obtain ⟨cp, p, m, hcp, hb1⟩ := procCrops_mem _ ca cs n b (by rw [hc]; exact h)
        exact ⟨lg, cp, p, m, hcp, hb1⟩
      · exact ih cs1 n1 b (by rw [hl]; exact h)

theorem procRegions_mem (ctx : Entry) (ra ca : List String) :
    ∀ (rs cs : List Entry) (n : Nat) (b : Entry),
      b ∈ (procRegions ctx ra ca rs cs n).1 →
      ∃ (rp : Entry) (lg : JVal) (cp : Entry) (p : JVal) (m : Nat),
        hasKey rp "languages" = false ∧ hasKey cp "problems" = false ∧
        b = mkBundle ctx rp lg m cp p := by
  intro rs
  induction rs with
  | nil => intro cs n b hb; simp [procRegions] at hb
  | cons r rest ih =>
      intro cs n b hb
      simp only [procRegions] at hb
      split at hb
      · rcases hr : procRegions ctx ra ca rest cs n with ⟨bs, rs', cs', cnt⟩
        rw [hr] at hb
        exact ih cs n b (by rw [hr]; exact hb)
      · rcases hl : procLangs ctx
            (if hasKey (sampleData "region_lang" ra r) "languages" then
              delKey (sampleData "region_lang" ra r) "languages"
            else sampleData "region_lang" ra r) ca
            (getArr (sampleData "region_lang" ra r) "languages") cs n with
          ⟨bs1, cs1, n1⟩
        rw [hl] at hb
        rcases hr : procRegions ctx ra ca rest cs1 n1 with ⟨bs2, rs', cs2, n2⟩
        rw [hr] at hb
        rcases List.mem_append.mp hb with h | h
        · obtain ⟨lg, cp, p, m, hcp, hb1⟩ :=
            procLangs_mem ctx _ ca _ cs n b (by rw [hl]; exact h)
          refine ⟨_, lg, cp, p, m, ?_, hcp, hb1⟩
          by_cases hk : hasKey (sampleData "region_lang" ra r) "languages"
          · simp only [hk, if_true]
            exact hasKey_delKey_self _ _
          · simp only [hk, if_false]
            simp only [Bool.not_eq_true] at hk
            exact hk
        · exact ih cs1 n1 b (by rw [hr]; exact h)

theorem procCombos_mem (ra ca : List String) :
    ∀ (combos : List (List (String × Entry))) (rs cs : List Entry) (n : Nat)
      (b : Entry), b ∈ (procCombos ra ca combos rs cs n).1 →
      ∃ combo, combo ∈ combos ∧
        ∃ (rp : Entry) (lg : JVal) (cp : Entry) (p : JVal) (m : Nat),
          hasKey rp "languages" = false ∧ hasKey cp "problems" = false ∧
          b = mkBundle (contextBundle combo) rp lg m cp p := by
  intro combos
  induction combos with
  | nil => intro rs cs n b hb; simp [procCombos] at hb
  | cons combo rest ih =>
      intro rs cs n b hb
      simp only [procCombos] at hb
      rcases hr : procRegions (contextBundle combo) ra ca rs cs n with
        ⟨bs1, rs1, cs1, n1⟩
      rw [hr] at hb
      rcases hc : procCombos ra ca rest rs1 cs1 n1 with ⟨bs2, rs2, cs2, n2⟩
      rw [hc] at hb
      rcases List.mem_append.mp hb with h | h
      · obtain ⟨rp, lg, cp, p, m, h1, h2, h3⟩ :=
          procRegions_mem (contextBundle combo) ra ca rs cs n b (by rw [hr]; exact h)
        exact ⟨combo, List.mem_cons_self _ _, rp, lg, cp, p, m, h1, h2, h3⟩
      · obtain ⟨combo1, hmem, rest1⟩ := ih rs1 cs1 n1 b (by rw [hc]; exact h)
        exact ⟨combo1, List.mem_cons_of_mem _ hmem, rest1⟩

/-- Every bundle `build_all` emits comes from one product combination, one
region whose payload kept no `languages` list, one of its languages, one crop
whose payload kept no `problems` list, and one of its problems. -/
theorem build_all_mem (st : BState) (b : Entry) (hb : b ∈ (build_all st).1) :
    ∃ combo, combo ∈ cartProd (st.indeps.map collectAxis) ∧
      ∃ (rp : Entry) (lg : JVal) (cp : Entry) (p : JVal) (m : Nat),
        hasKey rp "languages" = false ∧ hasKey cp "problems" = false ∧
        b = mkBundle (contextBundle combo) rp lg m cp p := by
  unfold build_all at hb
  dsimp only at hb
  rcases hc : procCombos st.regionAttrs st.cropAttrs
      (cartProd (st.indeps.map collectAxis)) st.regions st.crops 0 with
    ⟨bs, rs', cs', n'⟩
  rw [hc] at hb
  dsimp only at hb
  exact procCombos_mem st.regionAttrs st.cropAttrs _ st.regions st.crops 0 b
    (by rw [hc]; exact hb)

/-! ## Sequential id assignment (`final_bundle["id"] = count + 1`) -/

/-- The sequence of `id` values a run emits starting from count `n`. -/
def idSeq (n len : Nat) : List (Option JVal) :=
  (List.range len).map (fun i => some (JVal.jint ((n + i : Nat) + 1)))

theorem idSeq_succ (n l : Nat) :
    idSeq n (l + 1) = some (JVal.jint ((n : Int) + 1)) :: idSeq (n + 1) l := by
  unfold idSeq
  rw [List.range_succ_eq_map]
  simp only [List.map_cons, List.map_map, Nat.add_zero]
  congr 1
  apply List.map_congr_left
  intro i _
  simp only [Function.comp]
  congr 2
  push_cast
  omega

theorem idSeq_append (n a b : Nat) :
    idSeq n (a + b) = idSeq n a ++ idSeq (n + a) b := by
  unfold idSeq
  rw [List.range_add, List.map_append, List.map_map]
  congr 1
  apply List.map_congr_left
  intro i _
  simp only [Function.comp]
  congr 2
  push_cast
  omega

/-- The value of the `id` field of one emitted bundle. -/
theorem lookupKey_id_mkBundle (ctx rp : Entry) (lg : JVal) (m : Nat) (cp : Entry)
    (p : JVal) :
    lookupKey (mkBundle ctx rp lg m cp p) "id" = some (JVal.jint ((m : Int) + 1)) := by
  unfold mkBundle
  rw [lookupKey_setKey_ne _ _ _ _ (by decide)]
  rw [lookupKey_setKey_ne _ _ _ _ (by decide)]
  rw [lookupKey_setKey_self]

/-- The `id` values of one segment followed by another. -/
theorem idSeq_glue {f : Entry → Option JVal} {bs1 bs2 : List Entry} {n : Nat}
    (h1 : bs1.map f = idSeq n bs1.length)
    (h2 : bs2.map f = idSeq (n + bs1.length) bs2.length) :
    (bs1 ++ bs2).map f = idSeq n (bs1 ++ bs2).length := by
  rw [List.map_append, List.length_append, idSeq_append, h1, h2]

theorem procProblems_ids (base cp : Entry) :
    ∀ (ps : List JVal) (n : Nat),
      (procProblems base cp ps n).1.map (fun b => lookupKey b "id") =
        idSeq n (procProblems base cp ps n).1.length ∧
      (procProblems base cp ps n).2 = n + (procProblems base cp ps n).1.length := by
  intro ps
  induction ps with
  | nil => intro n; simp [procProblems, idSeq]
  | cons p rest ih =>
      intro n
      obtain ⟨ih1, ih2⟩ := ih (n + 1)
      simp only [procProblems, List.map_cons, List.length_cons]
      rw [idSeq_succ, ih1, ih2]
      constructor
      · congr 1
        have : lookupKey (setKey (setKey (setKey base "id"
            (JVal.jint ((n : Int) + 1))) "crop" (JVal.jobj cp)) "stress" p) "id" =
            some (JVal.jint ((n : Int) + 1)) := by
          rw [lookupKey_setKey_ne _ _ _ _ (by decide)]
          rw [lookupKey_setKey_ne _ _ _ _ (by decide)]
          rw [lookupKey_setKey_self]
        exact this
      · omega

theorem procCrops_ids (base : Entry) (ca : List String) :
    ∀ (cs : List Entry) (n : Nat),
      (procCrops base ca cs n).1.map (fun b => lookupKey b "id") =
        idSeq n (procCrops base ca cs n).1.length ∧
      (procCrops base ca cs n).2.2 = n + (procCrops base ca cs n).1.length := by
  intro cs
  induction cs with
  | nil => intro n; simp [procCrops, idSeq]
  | cons c rest ih =>
      intro n
      simp only [procCrops]
      split
      · exact ih n
      · rcases hp : procProblems base
            (if hasKey (sampleData "crop" ca c) "problems" then
              delKey (sampleData "crop" ca c) "problems"
            else sampleData "crop" ca c)
            (getArr (sampleData "crop" ca c) "problems") n with ⟨bs1, n1⟩
        obtain ⟨hq1, hq2⟩ := procProblems_ids base
          (if hasKey (sampleData "crop" ca c) "problems" then
            delKey (sampleData "crop" ca c) "problems"
          else sampleData "crop" ca c)
          (getArr (sampleData "crop" ca c) "problems") n
        rw [hp] at hq1 hq2
        simp only at hq1 hq2
        rcases hr : procCrops base ca rest n1 with ⟨bs2, cs2, n2⟩
        obtain ⟨ih1, ih2⟩ := ih n1
        rw [hr] at ih1 ih2
        simp only at ih1 ih2
        dsimp only
        constructor
        · exact idSeq_glue hq1 (by rw [← hq2]; exact ih1)
        · rw [List.length_append]
          omega

theorem procLangs_ids (ctx rp : Entry) (ca : List String) :
    ∀ (lgs : List JVal) (cs : List Entry) (n : Nat),
      (procLangs ctx rp ca lgs cs n).1.map (fun b => lookupKey b "id") =
        idSeq n (procLangs ctx rp ca lgs cs n).1.length ∧
      (procLangs ctx rp ca lgs cs n).2.2 =
        n + (procLangs ctx rp ca lgs cs n).1.length := by
  intro lgs
  induction lgs with
  | nil => intro cs n; simp [procLangs, idSeq]
  | cons lg rest ih =>
      intro cs n
      simp only [procLangs]
      rcases hc : procCrops (setKey (setKey ctx "region" (JVal.jobj rp))
          "language" lg) ca cs n with ⟨bs1, cs1, n1⟩
      obtain ⟨hq1, hq2⟩ := procCrops_ids (setKey (setKey ctx "region"
        (JVal.jobj rp)) "language" lg) ca cs n
      rw [hc] at hq1 hq2
      simp only at hq1 hq2
      rcases hl : procLangs ctx rp ca rest cs1 n1 with ⟨bs2, cs2, n2⟩
      obtain ⟨ih1, ih2⟩ := ih cs1 n1
      rw [hl] at ih1 ih2
      simp only at ih1 ih2
      dsimp only
      constructor
      · exact idSeq_glue hq1 (by rw [← hq2]; exact ih1)
      · rw [List.length_append]
        omega

theorem procRegions_ids (ctx : Entry) (ra ca : List String) :
    ∀ (rs cs : List Entry) (n : Nat),
      (procRegions ctx ra ca rs cs n).1.map (fun b => lookupKey b "id") =
        idSeq n (procRegions ctx ra ca rs cs n).1.length ∧
      (procRegions ctx ra ca rs cs n).2.2.2 =
        n + (procRegions ctx ra ca rs cs n).1.length := by
  intro rs
  induction rs with
  | nil => intro cs n; simp [procRegions, idSeq]
  | cons r rest ih =>
      intro cs n
      simp only [procRegions]
      split
      · exact ih cs n
      · rcases hl : procLangs ctx
            (if hasKey (sampleData "region_lang" ra r) "languages" then
              delKey (sampleData "region_lang" ra r) "languages"
            else sampleData "region_lang" ra r) ca
            (getArr (sampleData "region_lang" ra r) "languages") cs n with
          ⟨bs1, cs1, n1⟩
        obtain ⟨hq1, hq2⟩ := procLangs_ids ctx
          (if hasKey (sampleData "region_lang" ra r) "languages" then
            delKey (sampleData "region_lang" ra r) "languages"
          else sampleData "region_lang" ra r) ca
          (getArr (sampleData "region_lang" ra r) "languages") cs n
        rw [hl] at hq1 hq2
        simp only at hq1 hq2
        rcases hr : procRegions ctx ra ca rest cs1 n1 with ⟨bs2, rs2, cs2, n2⟩
        obtain ⟨ih1, ih2⟩ := ih cs1 n1
        rw [hr] at ih1 ih2
        simp only at ih1 ih2
        dsimp only
        constructor
        · exact idSeq_glue hq1 (by rw [← hq2]; exact ih1)
        · rw [List.length_append]
          omega

theorem procCombos_ids (ra ca : List String) :
    ∀ (combos : List (List (String × Entry))) (rs cs : List Entry) (n : Nat),
      (procCombos ra ca combos rs cs n).1.map (fun b => lookupKey b "id") =
        idSeq n (procCombos ra ca combos rs cs n).1.length ∧
      (procCombos ra ca combos rs cs n).2.2.2 =
        n + (procCombos ra ca combos rs cs n).1.length := by
  intro combos
  induction combos with
  | nil => intro rs cs n; simp [procCombos, idSeq]
  | cons combo rest ih =>
      intro rs cs n
      simp only [procCombos]
      rcases hr : procRegions (contextBundle combo) ra ca rs cs n with
        ⟨bs1, rs1, cs1, n1⟩
      obtain ⟨hq1, hq2⟩ := procRegions_ids (contextBundle combo) ra ca rs cs n
      rw [hr] at hq1 hq2
      simp only at hq1 hq2
      rcases hm : procCombos ra ca rest rs1 cs1 n1 with ⟨bs2, rs2, cs2, n2⟩
      obtain ⟨ih1, ih2⟩ := ih rs1 cs1 n1
      rw [hm] at ih1 ih2
      simp only at ih1 ih2
      dsimp only
      constructor
      · exact idSeq_glue hq1 (by rw [← hq2]; exact ih1)
      · rw [List.length_append]
        omega

/-- The emitted `id` sequence of a whole `build_all` run is 1, 2, 3, ... in
emission order. -/
theorem build_all_ids (st : BState) :
    (build_all st).1.map (fun b => lookupKey b "id") =
      idSeq 0 (build_all st).1.length := by
  unfold build_all
  dsimp only
  rcases hc : procCombos st.regionAttrs st.cropAttrs
      (cartProd (st.indeps.map collectAxis)) st.regions st.crops 0 with
    ⟨bs, rs', cs', n'⟩
  obtain ⟨hq1, _⟩ := procCombos_ids st.regionAttrs st.cropAttrs
    (cartProd (st.indeps.map collectAxis)) st.regions st.crops 0
  rw [hc] at hq1
  simpa using hq1

/-! ## C3 — bundle identity -/

theorem forall₂_mem_right {α β : Type} {R : α → β → Prop} :
    ∀ {ls : List α} {cs : List β}, List.Forall₂ R ls cs →
      ∀ c ∈ cs, ∃ l ∈ ls, R l c := by
  intro ls cs h
  induction h with
  | nil => intro c hc; simp at hc
  | cons hR hrest ih =>
      intro c hc
      rcases List.mem_cons.mp hc with rfl | hc
      · exact ⟨_, List.mem_cons_self _ _, hR⟩
      · obtain ⟨l, hl, hRl⟩ := ih c hc
        exact ⟨l, List.mem_cons_of_mem _ hl, hRl⟩

/-- The emitted bundle adds keys `region`, `language`, `id`, `crop`,
`stress` on top of the context — never `bundle_id`. -/
theorem hasKey_mkBundle_bundle_id (ctx rp : Entry) (lg : JVal) (m : Nat)
    (cp : Entry) (p : JVal) :
    hasKey (mkBundle ctx rp lg m cp p) "bundle_id" = hasKey ctx "bundle_id" := by
  unfold mkBundle
  rw [hasKey_setKey_ne _ _ _ _ (by decide)]
  rw [hasKey_setKey_ne _ _ _ _ (by decide)]
  rw [hasKey_setKey_ne _ _ _ _ (by decide)]
  rw [hasKey_setKey_ne _ _ _ _ (by decide)]
  rw [hasKey_setKey_ne _ _ _ _ (by decide)]

theorem build_all_no_bundle_id (st : BState)
    (hgroups : ∀ ax ∈ st.indeps, ax.group ∈ INDEPENDENT_AXES) :
    ∀ b ∈ (build_all st).1, hasKey b "bundle_id" = false := by
  intro b hb
  obtain ⟨combo, hcombo, rp, lg, cp, p, m, _, _, rfl⟩ := build_all_mem st b hb
  rw [hasKey_mkBundle_bundle_id, hasKey_contextBundle]
  rw [List.any_eq_false]
  intro gv hgv
  obtain ⟨l, hl, hmem⟩ := forall₂_mem_right (cartProd_mem _ _ hcombo) gv hgv
  obtain ⟨ax, hax, rfl⟩ := List.mem_map.mp hl
  unfold collectAxis at hmem
  obtain ⟨e, _, rfl⟩ := List.mem_map.mp hmem
  have hg := hgroups ax hax
  simp only [decide_eq_true_eq]
  intro hcontra
  rw [hcontra] at hg
  revert hg
  decide

/-- A one-region, one-language, one-crop, one-problem snapshot. -/
def c3Region : Entry :=
  [("id", JVal.jstr "reg_a"), ("languages", JVal.jarr [JVal.jstr "hi"])]

def c3Crop : Entry :=
  [("id", JVal.jstr "crop_a"), ("problems", JVal.jarr [JVal.jstr "pest"])]

def c3State : BState := ⟨[], [], [c3Region], [], [c3Crop]⟩

/-- **C3** (counterexample): `build_all` emits one bundle for this snapshot
and it carries no `bundle_id` field at all — only the integer `id`.  The
claimed derived `bundle_id = "__".join(entry ids)` is never written. -/
theorem c3_counterexample :
    build_count c3State = 1 ∧
    (build_all c3State).1.all (fun b => !(hasKey b "bundle_id")) = true :=
  ⟨rfl, rfl⟩

/-- **C3** (amended): every bundle emitted by the builder carries an integer
sequence id assigned `count + 1` in emission order (1-based: the bundle at
0-based position i has id i + 1), and carries no `bundle_id` field (the
independent axes are drawn from the declared `INDEPENDENT_AXES` groups). -/
theorem c3_bundle_identity (st : BState)
    (hgroups : ∀ ax ∈ st.indeps, ax.group ∈ INDEPENDENT_AXES) :
    (∀ (i : Nat) (hi : i < (build_all st).1.length),
      lookupKey ((build_all st).1.get ⟨i, hi⟩) "id" =
        some (JVal.jint ((i : Int) + 1))) ∧
    (∀ b ∈ (build_all st).1, hasKey b "bundle_id" = false) := by
  refine ⟨?_, build_all_no_bundle_id st hgroups⟩
  intro i hi
  have hmap := build_all_ids st
  have hget := congrArg (fun l => l[i]?) hmap
  simp only [List.getElem?_map] at hget
  rw [List.getElem?_eq_getElem hi] at hget
  unfold idSeq at hget
  rw [List.getElem?_map, List.getElem?_range (by simpa using hi)] at hget
  simp only [Option.map_some, Nat.zero_add] at hget
  rw [List.get_eq_getElem]
  exact Option.some.inj hget

theorem c3_len_pos : 0 < (build_all c3State).1.length := by decide

/-- Witness for `c3_bundle_identity` on the one-bundle snapshot. -/
theorem c3_bundle_identity_witness :
    lookupKey ((build_all c3State).1.get ⟨0, c3_len_pos⟩) "id" =
      some (JVal.jint ((0 : Int) + 1)) ∧
    hasKey ((build_all c3State).1.get ⟨0, c3_len_pos⟩) "bundle_id" = false :=
  ⟨(c3_bundle_identity c3State (fun ax h => absurd h (List.not_mem_nil ax))).1
      0 c3_len_pos,
   (c3_bundle_identity c3State (fun ax h => absurd h (List.not_mem_nil ax))).2
      _ (List.get_mem _ _ c3_len_pos)⟩

/-! ## C8 — empty dependent branches

The skip of an entry whose nested list is empty is expressed as: removing
such an entry from the snapshot leaves the emitted bundle stream unchanged.
`RemKey key L R` says `R` is `L` with one entry removed whose (label-ensured)
`key` list is empty. -/

def RemKey (key : String) (L R : List Entry) : Prop :=
  ∃ x xs1 xs2, getArr (ensureLabel x) key = [] ∧
    L = xs1 ++ x :: xs2 ∧ R = xs1 ++ xs2

theorem RemKey.consRel {key : String} {L R : List Entry} (e : Entry)
    (h : RemKey key L R) : RemKey key (e :: L) (e :: R) := by
  obtain ⟨x, xs1, xs2, hx, rfl, rfl⟩ := h
  exact ⟨x, e :: xs1, xs2, hx, rfl, rfl⟩

theorem procCrops_remProb (base : Entry) (ca : List String) (x : Entry)
    (hx : getArr (ensureLabel x) "problems" = []) :
    ∀ (xs1 xs2 : List Entry) (n : Nat),
      (procCrops base ca (xs1 ++ x :: xs2) n).1 =
        (procCrops base ca (xs1 ++ xs2) n).1 ∧
      (procCrops base ca (xs1 ++ x :: xs2) n).2.2 =
        (procCrops base ca (xs1 ++ xs2) n).2.2 ∧
      RemKey "problems" (procCrops base ca (xs1 ++ x :: xs2) n).2.1
        (procCrops base ca (xs1 ++ xs2) n).2.1 := by
  intro xs1
  induction xs1 with
  | nil =>
      intro xs2 n
      simp only [List.nil_append]
      have hcond : (getArr (sampleData "crop" ca x) "problems").isEmpty = true := by
        rw [sampleData_eq, hx]
        rfl
      simp only [procCrops, hcond, if_true]
      rcases hr : procCrops base ca xs2 n with ⟨bs, cs', n'⟩
      dsimp only
      refine ⟨by trivial, by trivial, ⟨ensureLabel x, [], cs', ?_, ?_, ?_⟩⟩
      · rw [ensureLabel_idem]
        exact hx
      · simp [sampleEffect]
      · simp
  | cons y ys ih =>
      intro xs2 n
      simp only [List.cons_append, procCrops]
      split
      · rcases hL : procCrops base ca (ys ++ x :: xs2) n with ⟨bsL, csL, nL⟩
        rcases hR : procCrops base ca (ys ++ xs2) n with ⟨bsR, csR, nR⟩
        obtain ⟨h1, h2, h3⟩ := ih xs2 n
        rw [hL, hR] at h1 h2 h3
        dsimp only at h1 h2 h3 ⊢
        exact ⟨h1, h2, RemKey.consRel _ h3⟩
      · rcases hp : procProblems base
            (if hasKey (sampleData "crop" ca y) "problems" then
              delKey (sampleData "crop" ca y) "problems"
            else sampleData "crop" ca y)
            (getArr (sampleData "crop" ca y) "problems") n with ⟨bs1, n1⟩
        rcases hL : procCrops base ca (ys ++ x :: xs2) n1 with ⟨bsL, csL, nL⟩
        rcases hR : procCrops base ca (ys ++ xs2) n1 with ⟨bsR, csR, nR⟩
        obtain ⟨h1, h2, h3⟩ := ih xs2 n1
        rw [hL, hR] at h1 h2 h3
        dsimp only at h1 h2 h3 ⊢
        exact ⟨by rw [h1], h2, RemKey.consRel _ h3⟩

theorem procLangs_remProb (ctx rp : Entry) (ca : List String) :
    ∀ (lgs : List JVal) (L R : List Entry), RemKey "problems" L R → ∀ (n : Nat),
      (procLangs ctx rp ca lgs L n).1 = (procLangs ctx rp ca lgs R n).1 ∧
      (procLangs ctx rp ca lgs L n).2.2 = (procLangs ctx rp ca lgs R n).2.2 ∧
      RemKey "problems" (procLangs ctx rp ca lgs L n).2.1
        (procLangs ctx rp ca lgs R n).2.1 := by
  intro lgs
  induction lgs with
  | nil =>
      intro L R h n
      simp only [procLangs]
      exact ⟨by trivial, by trivial, h⟩
  | cons lg rest ih =>
      intro L R h n
      obtain ⟨x, xs1, xs2, hx, rfl, rfl⟩ := h
      simp only [procLangs]
      obtain ⟨h1, h2, h3⟩ := procCrops_remProb (setKey (setKey ctx "region"
        (JVal.jobj rp)) "language" lg) ca x hx xs1 xs2 n
      rcases hcL : procCrops (setKey (setKey ctx "region" (JVal.jobj rp))
          "language" lg) ca (xs1 ++ x :: xs2) n with ⟨bs1L, cs1L, n1L⟩
      rcases hcR : procCrops (setKey (setKey ctx "region" (JVal.jobj rp))
          "language" lg) ca (xs1 ++ xs2) n with ⟨bs1R, cs1R, n1R⟩
      rw [hcL, hcR] at h1 h2 h3
      dsimp only at h1 h2 h3
      subst h2
      obtain ⟨g1, g2, g3⟩ := ih cs1L cs1R h3 n1L
      rcases hlL : procLangs ctx rp ca rest cs1L n1L with ⟨bs2L, cs2L, n2L⟩
      rcases hlR : procLangs ctx rp ca rest cs1R n1L with ⟨bs2R, cs2R, n2R⟩
      rw [hlL, hlR] at g1 g2 g3
      dsimp only at g1 g2 g3 ⊢
      exact ⟨by rw [h1, g1], g2, g3⟩

theorem procRegions_remProb (ctx : Entry) (ra ca : List String) :
    ∀ (rs : List Entry) (L R : List Entry), RemKey "problems" L R → ∀ (n : Nat),
      (procRegions ctx ra ca rs L n).1 = (procRegions ctx ra ca rs R n).1 ∧
      (procRegions ctx ra ca rs L n).2.2.2 =
        (procRegions ctx ra ca rs R n).2.2.2 ∧
      (procRegions ctx ra ca rs L n).2.1 = (procRegions ctx ra ca rs R n).2.1 ∧
      RemKey "problems" (procRegions ctx ra ca rs L n).2.2.1
        (procRegions ctx ra ca rs R n).2.2.1 := by
  intro rs
  induction rs with
  | nil =>
      intro L R h n
      simp only [procRegions]
      exact ⟨by trivial, by trivial, by trivial, h⟩
  | cons r rest ih =>
      intro L R h n
      simp only [procRegions]
      split
      · rcases hL : procRegions ctx ra ca rest L n with ⟨bsL, rsL, csL, nL⟩
        rcases hR : procRegions ctx ra ca rest R n with ⟨bsR, rsR, csR, nR⟩
        obtain ⟨h1, h2, h3, h4⟩ := ih L R h n
        rw [hL, hR] at h1 h2 h3 h4
        dsimp only at h1 h2 h3 h4 ⊢
        exact ⟨h1, h2, by rw [h3], h4⟩
      · obtain ⟨h1, h2, h3⟩ := procLangs_remProb ctx
          (if hasKey (sampleData "region_lang" ra r) "languages" then
            delKey (sampleData "region_lang" ra r) "languages"
          else sampleData "region_lang" ra r) ca
          (getArr (sampleData "region_lang" ra r) "languages") L R h n
        rcases hlL : procLangs ctx
            (if hasKey (sampleData "region_lang" ra r) "languages" then
              delKey (sampleData "region_lang" ra r) "languages"
            else sampleData "region_lang" ra r) ca
            (getArr (sampleData "region_lang" ra r) "languages") L n with
          ⟨bs1L, cs1L, n1L⟩
        rcases hlR : procLangs ctx
            (if hasKey (sampleData "region_lang" ra r) "languages" then
              delKey (sampleData "region_lang" ra r) "languages"
            else sampleData "region_lang" ra r) ca
            (getArr (sampleData "region_lang" ra r) "languages") R n with
          ⟨bs1R, cs1R, n1R⟩
        rw [hlL, hlR] at h1 h2 h3
        dsimp only at h1 h2 h3
        subst h2
        obtain ⟨g1, g2, g3, g4⟩ := ih cs1L cs1R h3 n1L
        rcases hrL : procRegions ctx ra ca rest cs1L n1L with ⟨bs2L, rs2L, cs2L, n2L⟩
        rcases hrR : procRegions ctx ra ca rest cs1R n1L with ⟨bs2R, rs2R, cs2R, n2R⟩
        rw [hrL, hrR] at g1 g2 g3 g4
        dsimp only at g1 g2 g3 g4 ⊢
        exact ⟨by rw [h1, g1], g2, by rw [g3], g4⟩

theorem procCombos_remProb (ra ca : List String) :
    ∀ (combos : List (List (String × Entry))) (rs : List Entry)
      (L R : List Entry), RemKey "problems" L R → ∀ (n : Nat),
      (procCombos ra ca combos rs L n).1 = (procCombos ra ca combos rs R n).1 ∧
      (procCombos ra ca combos rs L n).2.2.2 =
        (procCombos ra ca combos rs R n).2.2.2 ∧
      (procCombos ra ca combos rs L n).2.1 = (procCombos ra ca combos rs R n).2.1 ∧
      RemKey "problems" (procCombos ra ca combos rs L n).2.2.1
        (procCombos ra ca combos rs R n).2.2.1 := by
  intro combos
  induction combos with
  | nil =>
      intro rs L R h n
      simp only [procCombos]
      exact ⟨by trivial, by trivial, by trivial, h⟩
  | cons combo rest ih =>
      intro rs L R h n
      simp only [procCombos]
      obtain ⟨h1, h2, h3, h4⟩ := procRegions_remProb (contextBundle combo)
        ra ca rs L R h n
      rcases hrL : procRegions (contextBundle combo) ra ca rs L n with
        ⟨bs1L, rs1L, cs1L, n1L⟩
      rcases hrR : procRegions (contextBundle combo) ra ca rs R n with
        ⟨bs1R, rs1R, cs1R, n1R⟩
      rw [hrL, hrR] at h1 h2 h3 h4
      dsimp only at h1 h2 h3 h4
      subst h2
      subst h3
      obtain ⟨g1, g2, g3, g4⟩ := ih rs1L cs1L cs1R h4 n1L
      rcases hcL : procCombos ra ca rest rs1L cs1L n1L with ⟨bs2L, rs2L, cs2L, n2L⟩
      rcases hcR : procCombos ra ca rest rs1L cs1R n1L with ⟨bs2R, rs2R, cs2R, n2R⟩
      rw [hcL, hcR] at g1 g2 g3 g4
      dsimp only at g1 g2 g3 g4 ⊢
      exact ⟨by rw [h1, g1], g2, by rw [g3], g4⟩

/-- Removing a crop entry whose `problems` list is empty leaves the emitted
bundle stream unchanged. -/
theorem build_all_remProb (st : BState) (x : Entry) (xs1 xs2 : List Entry)
    (hx : getArr x "problems" = []) (hcrops : st.crops = xs1 ++ x :: xs2) :
    (build_all st).1 =
      (build_all ⟨st.indeps, st.regionAttrs, st.regions, st.cropAttrs,
        xs1 ++ xs2⟩).1 := by
  have hx' : getArr (ensureLabel x) "problems" = [] := by
    rw [getArr_ensureLabel _ _ (by decide)]
    exact hx
  unfold build_all
  dsimp only
  rw [hcrops]
  obtain ⟨h1, _, _, _⟩ := procCombos_remProb st.regionAttrs st.cropAttrs
    (cartProd (st.indeps.map collectAxis)) st.regions (xs1 ++ x :: xs2)
    (xs1 ++ xs2) ⟨x, xs1, xs2, hx', rfl, rfl⟩ 0
  rcases hL : procCombos st.regionAttrs st.cropAttrs
      (cartProd (st.indeps.map collectAxis)) st.regions (xs1 ++ x :: xs2) 0 with
    ⟨bsL, rsL, csL, nL⟩
  rcases hR : procCombos st.regionAttrs st.cropAttrs
      (cartProd (st.indeps.map collectAxis)) st.regions (xs1 ++ xs2) 0 with
    ⟨bsR, rsR, csR, nR⟩
  rw [hL, hR] at h1
  dsimp only at h1 ⊢
  exact h1

theorem procRegions_remLang (ctx : Entry) (ra ca : List String) (x : Entry)
    (hx : getArr (ensureLabel x) "languages" = []) :
    ∀ (xs1 xs2 cs : List Entry) (n : Nat),
      (procRegions ctx ra ca (xs1 ++ x :: xs2) cs n).1 =
        (procRegions ctx ra ca (xs1 ++ xs2) cs n).1 ∧
      (procRegions ctx ra ca (xs1 ++ x :: xs2) cs n).2.2.2 =
        (procRegions ctx ra ca (xs1 ++ xs2) cs n).2.2.2 ∧
      RemKey "languages" (procRegions ctx ra ca (xs1 ++ x :: xs2) cs n).2.1
        (procRegions ctx ra ca (xs1 ++ xs2) cs n).2.1 ∧
      (procRegions ctx ra ca (xs1 ++ x :: xs2) cs n).2.2.1 =
        (procRegions ctx ra ca (xs1 ++ xs2) cs n).2.2.1 := by
  intro xs1
  induction xs1 with
  | nil =>
      intro xs2 cs n
      simp only [List.nil_append]
      have hcond : (getArr (sampleData "region_lang" ra x) "languages").isEmpty
          = true := by
        rw [sampleData_eq, hx]
        rfl
      simp only [procRegions, hcond, if_true]
      rcases hr : procRegions ctx ra ca xs2 cs n with ⟨bs, rs', cs', n'⟩
      dsimp only
      refine ⟨by trivial, by trivial, ⟨ensureLabel x, [], rs', ?_, ?_, ?_⟩,
        by trivial⟩
      · rw [ensureLabel_idem]
        exact hx
      · simp [sampleEffect]
      · simp
  | cons y ys ih =>
      intro xs2 cs n
      simp only [List.cons_append, procRegions]
      split
      · rcases hL : procRegions ctx ra ca (ys ++ x :: xs2) cs n with
          ⟨bsL, rsL, csL, nL⟩
        rcases hR : procRegions ctx ra ca (ys ++ xs2) cs n with
          ⟨bsR, rsR, csR, nR⟩
        obtain ⟨h1, h2, h3, h4⟩ := ih xs2 cs n
        rw [hL, hR] at h1 h2 h3 h4
        dsimp only at h1 h2 h3 h4 ⊢
        exact ⟨h1, h2, RemKey.consRel _ h3, h4⟩
      · rcases hl : procLangs ctx
            (if hasKey (sampleData "region_lang" ra y) "languages" then
              delKey (sampleData "region_lang" ra y) "languages"
            else sampleData "region_lang" ra y) ca
            (getArr (sampleData "region_lang" ra y) "languages") cs n with
          ⟨bs1, cs1, n1⟩
        rcases hL : procRegions ctx ra ca (ys ++ x :: xs2) cs1 n1 with
          ⟨bsL, rsL, csL, nL⟩
        rcases hR : procRegions ctx ra ca (ys ++ xs2) cs1 n1 with
          ⟨bsR, rsR, csR, nR⟩
        obtain ⟨h1, h2, h3, h4⟩ := ih xs2 cs1 n1
        rw [hL, hR] at h1 h2 h3 h4
        dsimp only at h1 h2 h3 h4 ⊢
        exact ⟨by rw [h1], h2, RemKey.consRel _ h3, h4⟩

theorem procCombos_remLang (ra ca : List String) :
    ∀ (combos : List (List (String × Entry))) (L R cs : List Entry),
      RemKey "languages" L R → ∀ (n : Nat),
      (procCombos ra ca combos L cs n).1 = (procCombos ra ca combos R cs n).1 ∧
      (procCombos ra ca combos L cs n).2.2.2 =
        (procCombos ra ca combos R cs n).2.2.2 ∧
      RemKey "languages" (procCombos ra ca combos L cs n).2.1
        (procCombos ra ca combos R cs n).2.1 ∧
      (procCombos ra ca combos L cs n).2.2.1 =
        (procCombos ra ca combos R cs n).2.2.1 := by
  intro combos
  induction combos with
  | nil =>
      intro L R cs h n
      simp only [procCombos]
      exact ⟨by trivial, by trivial, h, by trivial⟩
  | cons combo rest ih =>
      intro L R cs h n
      obtain ⟨x, xs1, xs2, hx, rfl, rfl⟩ := h
      simp only [procCombos]
      obtain ⟨h1, h2, h3, h4⟩ := procRegions_remLang (contextBundle combo)
        ra ca x hx xs1 xs2 cs n
      rcases hrL : procRegions (contextBundle combo) ra ca (xs1 ++ x :: xs2)
          cs n with ⟨bs1L, rs1L, cs1L, n1L⟩
      rcases hrR : procRegions (contextBundle combo) ra ca (xs1 ++ xs2)
          cs n with ⟨bs1R, rs1R, cs1R, n1R⟩
      rw [hrL, hrR] at h1 h2 h3 h4
      dsimp only at h1 h2 h3 h4
      subst h2
      subst h4
      obtain ⟨g1, g2, g3, g4⟩ := ih rs1L rs1R cs1L h3 n1L
      rcases hcL : procCombos ra ca rest rs1L cs1L n1L with
        ⟨bs2L, rs2L, cs2L, n2L⟩
      rcases hcR : procCombos ra ca rest rs1R cs1L n1L with
        ⟨bs2R, rs2R, cs2R, n2R⟩
      rw [hcL, hcR] at g1 g2 g3 g4
      dsimp only at g1 g2 g3 g4 ⊢
      exact ⟨by rw [h1, g1], g2, g3, g4⟩

/-- Removing a region entry whose `languages` list is empty leaves the
emitted bundle stream unchanged. -/
theorem build_all_remLang (st : BState) (x : Entry) (xs1 xs2 : List Entry)
    (hx : getArr x "languages" = []) (hregions : st.regions = xs1 ++ x :: xs2) :
    (build_all st).1 =
      (build_all ⟨st.indeps, st.regionAttrs, xs1 ++ xs2, st.cropAttrs,
        st.crops⟩).1 := by
  have hx' : getArr (ensureLabel x) "languages" = [] := by
    rw [getArr_ensureLabel _ _ (by decide)]
    exact hx
  unfold build_all
  dsimp only
  rw [hregions]
  obtain ⟨h1, _, _, _⟩ := procCombos_remLang st.regionAttrs st.cropAttrs
    (cartProd (st.indeps.map collectAxis)) (xs1 ++ x :: xs2) (xs1 ++ xs2)
    st.crops ⟨x, xs1, xs2, hx', rfl, rfl⟩ 0
  rcases hL : procCombos st.regionAttrs st.cropAttrs
      (cartProd (st.indeps.map collectAxis)) (xs1 ++ x :: xs2) st.crops 0 with
    ⟨bsL, rsL, csL, nL⟩
  rcases hR : procCombos st.regionAttrs st.cropAttrs
      (cartProd (st.indeps.map collectAxis)) (xs1 ++ xs2) st.crops 0 with
    ⟨bsR, rsR, csR, nR⟩
  rw [hL, hR] at h1
  dsimp only at h1 ⊢
  exact h1

theorem lookupKey_mkBundle_region (ctx rp : Entry) (lg : JVal) (m : Nat)
    (cp : Entry) (p : JVal) :
    lookupKey (mkBundle ctx rp lg m cp p) "region" = some (JVal.jobj rp) := by
  unfold mkBundle
  rw [lookupKey_setKey_ne _ _ _ _ (by decide)]
  rw [lookupKey_setKey_ne _ _ _ _ (by decide)]
  rw [lookupKey_setKey_ne _ _ _ _ (by decide)]
  rw [lookupKey_setKey_ne _ _ _ _ (by decide)]
  rw [lookupKey_setKey_self]

theorem lookupKey_mkBundle_crop (ctx rp : Entry) (lg : JVal) (m : Nat)
    (cp : Entry) (p : JVal) :
    lookupKey (mkBundle ctx rp lg m cp p) "crop" = some (JVal.jobj cp) := by
  unfold mkBundle
  rw [lookupKey_setKey_ne _ _ _ _ (by decide)]
  rw [lookupKey_setKey_self]

theorem hasKey_mkBundle_language (ctx rp : Entry) (lg : JVal) (m : Nat)
    (cp : Entry) (p : JVal) :
    hasKey (mkBundle ctx rp lg m cp p) "language" = true := by
  unfold mkBundle hasKey
  rw [lookupKey_setKey_ne _ _ _ _ (by decide)]
  rw [lookupKey_setKey_ne _ _ _ _ (by decide)]
  rw [lookupKey_setKey_ne _ _ _ _ (by decide)]
  rw [lookupKey_setKey_self]
  rfl

theorem hasKey_mkBundle_stress (ctx rp : Entry) (lg : JVal) (m : Nat)
    (cp : Entry) (p : JVal) :
    hasKey (mkBundle ctx rp lg m cp p) "stress" = true := by
  unfold mkBundle hasKey
  rw [lookupKey_setKey_self]
  rfl

/-- **C8**: (1) every emitted bundle has a region payload from which the
nested `languages` list was stripped, a crop payload from which `problems`
was stripped, and concrete `language` and `stress` fields; (2) a region
entry with an empty `languages` list contributes zero bundles — removing it
from the snapshot leaves the output unchanged; (3) likewise a crop entry
with an empty `problems` list. -/
theorem c8_empty_dependent_branches :
    (∀ (st : BState), ∀ b ∈ (build_all st).1,
      (∃ rp, lookupKey b "region" = some (JVal.jobj rp) ∧
        hasKey rp "languages" = false) ∧
      (∃ cp, lookupKey b "crop" = some (JVal.jobj cp) ∧
        hasKey cp "problems" = false) ∧
      hasKey b "language" = true ∧ hasKey b "stress" = true) ∧
    (∀ (st : BState) (x : Entry) (xs1 xs2 : List Entry),
      getArr x "languages" = [] → st.regions = xs1 ++ x :: xs2 →
      (build_all st).1 =
        (build_all ⟨st.indeps, st.regionAttrs, xs1 ++ xs2, st.cropAttrs,
          st.crops⟩).1) ∧
    (∀ (st : BState) (x : Entry) (xs1 xs2 : List Entry),
      getArr x "problems" = [] → st.crops = xs1 ++ x :: xs2 →
      (build_all st).1 =
        (build_all ⟨st.indeps, st.regionAttrs, st.regions, st.cropAttrs,
          xs1 ++ xs2⟩).1) := by
  refine ⟨?_, fun st x xs1 xs2 hx hr => build_all_remLang st x xs1 xs2 hx hr,
    fun st x xs1 xs2 hx hc => build_all_remProb st x xs1 xs2 hx hc⟩
  intro st b hb
  obtain ⟨combo, _, rp, lg, cp, p, m, hrp, hcp, rfl⟩ := build_all_mem st b hb
  exact ⟨⟨rp, lookupKey_mkBundle_region _ _ _ _ _ _, hrp⟩,
    ⟨cp, lookupKey_mkBundle_crop _ _ _ _ _ _, hcp⟩,
    hasKey_mkBundle_language _ _ _ _ _ _,
    hasKey_mkBundle_stress _ _ _ _ _ _⟩

/-- A snapshot with one empty-`languages` region, one real region, one real
crop and one empty-`problems` crop. -/
def c8RegionEmpty : Entry :=
  [("id", JVal.jstr "reg_b"), ("languages", JVal.jarr [])]

def c8Region : Entry :=
  [("id", JVal.jstr "reg_c"), ("languages", JVal.jarr [JVal.jstr "te"])]

def c8Crop : Entry :=
  [("id", JVal.jstr "crop_c"), ("problems", JVal.jarr [JVal.jstr "blight"])]

def c8CropEmpty : Entry :=
  [("id", JVal.jstr "crop_d"), ("problems", JVal.jarr [])]

def c8State : BState :=
  ⟨[], [], [c8RegionEmpty, c8Region], [], [c8Crop, c8CropEmpty]⟩

theorem c8_len_pos : 0 < (build_all c8State).1.length := by decide

/-- Witness for `c8_empty_dependent_branches` on a concrete snapshot. -/
theorem c8_empty_dependent_branches_witness :
    ((∃ rp, lookupKey ((build_all c8State).1.get ⟨0, c8_len_pos⟩) "region" =
        some (JVal.jobj rp) ∧ hasKey rp "languages" = false) ∧
     (∃ cp, lookupKey ((build_all c8State).1.get ⟨0, c8_len_pos⟩) "crop" =
        some (JVal.jobj cp) ∧ hasKey cp "problems" = false) ∧
     hasKey ((build_all c8State).1.get ⟨0, c8_len_pos⟩) "language" = true ∧
     hasKey ((build_all c8State).1.get ⟨0, c8_len_pos⟩) "stress" = true) ∧
    (build_all c8State).1 =
      (build_all ⟨c8State.indeps, c8State.regionAttrs, [] ++ [c8Region],
        c8State.cropAttrs, c8State.crops⟩).1 ∧
    (build_all c8State).1 =
      (build_all ⟨c8State.indeps, c8State.regionAttrs, c8State.regions,
        c8State.cropAttrs, [c8Crop] ++ []⟩).1 :=
  ⟨c8_empty_dependent_branches.1 c8State _ (List.get_mem _ _ c8_len_pos),
   c8_empty_dependent_branches.2.1 c8State c8RegionEmpty [] [c8Region] rfl rfl,
   c8_empty_dependent_branches.2.2 c8State c8CropEmpty [c8Crop] [] rfl rfl⟩

/-! ## C9 — determinism of the bundle assembler

`build_all` reads the taxonomy snapshot through `adapter.sample`, which
mutates each stored entry by ensuring its `label` field.  A second run
therefore starts from a snapshot whose entries are the first run's entries
with labels ensured; since `ensureLabel` is idempotent and `sample`'s data
view is exactly `ensureLabel`, the second run reads the same data and emits
the same bundles.  `EnsVar` relates an entry before a run to what the run
may have left in its place. -/

/-- An entry after a run is either untouched or label-ensured. -/
def EnsVar (e e' : Entry) : Prop := e' = e ∨ e' = ensureLabel e

theorem ensVar_refl (e : Entry) : EnsVar e e := Or.inl rfl

theorem ensVar_ensure (e : Entry) : EnsVar e (ensureLabel e) := Or.inr rfl

theorem ensVar_label {a b : Entry} (h : EnsVar a b) :
    ensureLabel b = ensureLabel a := by
  rcases h with rfl | rfl
  · rfl
  · exact ensureLabel_idem a

theorem ensVar_trans {a b c : Entry} (h1 : EnsVar a b) (h2 : EnsVar b c) :
    EnsVar a c := by
  rcases h1 with rfl | rfl
  · exact h2
  · rcases h2 with rfl | rfl
    · exact Or.inr rfl
    · exact Or.inr (ensureLabel_idem a)

/-- Pointwise lifting of `EnsVar` to the stored entry lists. -/
def EnsRel (L R : List Entry) : Prop := List.Forall₂ EnsVar L R

theorem ensRel_refl (xs : List Entry) : EnsRel xs xs := by
  induction xs with
  | nil => exact List.Forall₂.nil
  | cons x rest ih => exact List.Forall₂.cons (ensVar_refl x) ih

theorem ensRel_ensure (xs : List Entry) : EnsRel xs (xs.map ensureLabel) := by
  induction xs with
  | nil => exact List.Forall₂.nil
  | cons x rest ih => exact List.Forall₂.cons (ensVar_ensure x) ih

theorem ensRel_trans {a b : List Entry} (h1 : EnsRel a b) :
    ∀ {c : List Entry}, EnsRel b c → EnsRel a c := by
  induction h1 with
  | nil =>
      intro c h2
      cases h2
      exact List.Forall₂.nil
  | cons hab htail ih =>
      intro c h2
      cases h2 with
      | cons hbc htail2 =>
          exact List.Forall₂.cons (ensVar_trans hab hbc) (ih htail2)

/-- The crop loop is insensitive to label-ensuring of its entry list: it
returns the very same bundles, mutated list and count. -/
theorem procCrops_congr (base : Entry) (ca : List String) :
    ∀ {cs ds : List Entry}, EnsRel cs ds → ∀ (n : Nat),
      procCrops base ca ds n = procCrops base ca cs n := by
  intro cs ds h
  induction h with
  | nil => intro n; rfl
  | cons hab htail ih =>
      intro n
      rename_i a b l₁ l₂
      have hs : sampleData "crop" ca b = sampleData "crop" ca a := by
        rw [sampleData_eq, sampleData_eq]
        exact ensVar_label hab
      have he : sampleEffect b = sampleEffect a := by
        simp only [sampleEffect]
        exact ensVar_label hab
      simp only [procCrops, hs, he]
      split
      · simp only [ih]
      · simp only [ih]

/-- The language loop under `EnsVar`-related crop lists: same bundles, same
count, and the two mutated crop lists stay related. -/
theorem procLangs_congr (ctx rp : Entry) (ca : List String) :
    ∀ (lgs : List JVal) {cs ds : List Entry}, EnsRel cs ds → ∀ (n : Nat),
      (procLangs ctx rp ca lgs ds n).1 = (procLangs ctx rp ca lgs cs n).1 ∧
      (procLangs ctx rp ca lgs ds n).2.2 = (procLangs ctx rp ca lgs cs n).2.2 ∧
      EnsRel (procLangs ctx rp ca lgs cs n).2.1
        (procLangs ctx rp ca lgs ds n).2.1 := by
  intro lgs
  induction lgs with
  | nil =>
      intro cs ds h n
      simp only [procLangs]
      exact ⟨by trivial, by trivial, h⟩
  | cons lg rest ih =>
      intro cs ds h n
      simp only [procLangs]
      rw [procCrops_congr _ ca h n]
      rcases hc : procCrops (setKey (setKey ctx "region" (JVal.jobj rp))
          "language" lg) ca cs n with ⟨bs1, cs1, n1⟩
      dsimp only
      rcases hl : procLangs ctx rp ca rest cs1 n1 with ⟨bs2, cs2, n2⟩
      dsimp only
      exact ⟨by trivial, by trivial, ensRel_refl cs2⟩

/-- The region loop under `EnsVar`-related region and crop lists: same
bundles, same count, identical mutated region lists, related crop lists. -/
theorem procRegions_congr (ctx : Entry) (ra ca : List String) :
    ∀ {rs rs' : List Entry}, EnsRel rs rs' →
    ∀ {cs cs' : List Entry}, EnsRel cs cs' → ∀ (n : Nat),
      (procRegions ctx ra ca rs' cs' n).1 =
        (procRegions ctx ra ca rs cs n).1 ∧
      (procRegions ctx ra ca rs' cs' n).2.2.2 =
        (procRegions ctx ra ca rs cs n).2.2.2 ∧
      (procRegions ctx ra ca rs' cs' n).2.1 =
        (procRegions ctx ra ca rs cs n).2.1 ∧
      EnsRel (procRegions ctx ra ca rs cs n).2.2.1
        (procRegions ctx ra ca rs' cs' n).2.2.1 := by
  intro rs rs' hr
  induction hr with
  | nil =>
      intro cs cs' hc n
      simp only [procRegions]
      exact ⟨by trivial, by trivial, by trivial, hc⟩
  | cons hab htail ih =>
      intro cs cs' hc n
      rename_i a b l₁ l₂
      have hs : sampleData "region_lang" ra b = sampleData "region_lang" ra a := by
        rw [sampleData_eq, sampleData_eq]
        exact ensVar_label hab
      have he : sampleEffect b = sampleEffect a := by
        simp only [sampleEffect]
        exact ensVar_label hab
      simp only [procRegions, hs, he]
      split
      · obtain ⟨h1, h2, h3, h4⟩ := ih hc n
        rcases hL : procRegions ctx ra ca l₂ cs' n with ⟨bsL, rsL, csL, nL⟩
        rcases hR : procRegions ctx ra ca l₁ cs n with ⟨bsR, rsR, csR, nR⟩
        rw [hL, hR] at h1 h2 h3 h4
        dsimp only at h1 h2 h3 h4 ⊢
        exact ⟨h1, h2, by rw [h3], h4⟩
      · obtain ⟨p1, p2, p3⟩ := procLangs_congr ctx
          (if hasKey (sampleData "region_lang" ra a) "languages" then
            delKey (sampleData "region_lang" ra a) "languages"
          else sampleData "region_lang" ra a) ca
          (getArr (sampleData "region_lang" ra a) "languages") hc n
        rcases hlL : procLangs ctx
            (if hasKey (sampleData "region_lang" ra a) "languages" then
              delKey (sampleData "region_lang" ra a) "languages"
            else sampleData "region_lang" ra a) ca
            (getArr (sampleData "region_lang" ra a) "languages") cs' n with
          ⟨bs1L, cs1L, n1L⟩
        rcases hlR : procLangs ctx
            (if hasKey (sampleData "region_lang" ra a) "languages" then
              delKey (sampleData "region_lang" ra a) "languages"
            else sampleData "region_lang" ra a) ca
            (getArr (sampleData "region_lang" ra a) "languages") cs n with
          ⟨bs1R, cs1R, n1R⟩
        rw [hlL, hlR] at p1 p2 p3
        dsimp only at p1 p2 p3
        subst p2
        obtain ⟨g1, g2, g3, g4⟩ := ih p3 n1L
        rcases hgL : procRegions ctx ra ca l₂ cs1L n1L with ⟨bs2L, rs2L, cs2L, n2L⟩
        rcases hgR : procRegions ctx ra ca l₁ cs1R n1L with ⟨bs2R, rs2R, cs2R, n2R⟩
        rw [hgL, hgR] at g1 g2 g3 g4
        dsimp only at g1 g2 g3 g4 ⊢
        exact ⟨by rw [p1, g1], g2, by rw [g3], g4⟩

/-- The combo loop under `EnsVar`-related region and crop lists: same
bundles, same count, and both mutated lists stay related. -/
theorem procCombos_congr (ra ca : List String) :
    ∀ (combos : List (List (String × Entry))) {rs rs' cs cs' : List Entry},
      EnsRel rs rs' → EnsRel cs cs' → ∀ (n : Nat),
      (procCombos ra ca combos rs' cs' n).1 =
        (procCombos ra ca combos rs cs n).1 ∧
      (procCombos ra ca combos rs' cs' n).2.2.2 =
        (procCombos ra ca combos rs cs n).2.2.2 ∧
      EnsRel (procCombos ra ca combos rs cs n).2.1
        (procCombos ra ca combos rs' cs' n).2.1 ∧
      EnsRel (procCombos ra ca combos rs cs n).2.2.1
        (procCombos ra ca combos rs' cs' n).2.2.1 := by
  intro combos
  induction combos with
  | nil =>
      intro rs rs' cs cs' hr hc n
      simp only [procCombos]
      exact ⟨by trivial, by trivial, hr, hc⟩
  | cons combo more ih =>
      intro rs rs' cs cs' hr hc n
      simp only [procCombos]
      obtain ⟨h1, h2, h3, h4⟩ := procRegions_congr (contextBundle combo) ra ca hr hc n
      rcases hL : procRegions (contextBundle combo) ra ca rs' cs' n with
        ⟨bs1L, rs1L, cs1L, n1L⟩
      rcases hR : procRegions (contextBundle combo) ra ca rs cs n with
        ⟨bs1R, rs1R, cs1R, n1R⟩
      rw [hL, hR] at h1 h2 h3 h4
      dsimp only at h1 h2 h3 h4
      subst h2
      subst h3
      obtain ⟨g1, g2, g3, g4⟩ := ih (ensRel_refl rs1L) h4 n1L
      rcases hgL : procCombos ra ca more rs1L cs1L n1L with ⟨bs2L, rs2L, cs2L, n2L⟩
      rcases hgR : procCombos ra ca more rs1L cs1R n1L with ⟨bs2R, rs2R, cs2R, n2R⟩
      rw [hgL, hgR] at g1 g2 g3 g4
      dsimp only at g1 g2 g3 g4 ⊢
      exact ⟨by rw [h1, g1], g2, g3, g4⟩

/-- The crop loop leaves the stored crop list label-ensured. -/
theorem procCrops_state (base : Entry) (ca : List String) :
    ∀ (cs : List Entry) (n : Nat),
      (procCrops base ca cs n).2.1 = cs.map ensureLabel := by
  intro cs
  induction cs with
  | nil => intro n; rfl
  | cons c rest ih =>
      intro n
      simp only [procCrops]
      split
      · rcases hr : procCrops base ca rest n with ⟨bs, cs', n'⟩
        have h := ih n
        rw [hr] at h
        dsimp only at h ⊢
        simp only [sampleEffect, List.map_cons]
        rw [h]
      · rcases hp : procProblems base
            (if hasKey (sampleData "crop" ca c) "problems" then
              delKey (sampleData "crop" ca c) "problems"
            else sampleData "crop" ca c)
            (getArr (sampleData "crop" ca c) "problems") n with ⟨bs1, n1⟩
        rcases hr : procCrops base ca rest n1 with ⟨bs2, cs', n2⟩
        have h := ih n1
        rw [hr] at h
        dsimp only at h ⊢
        simp only [sampleEffect, List.map_cons]
        rw [h]

/-- The region loop leaves the stored region list label-ensured. -/
theorem procRegions_state (ctx : Entry) (ra ca : List String) :
    ∀ (rs cs : List Entry) (n : Nat),
      (procRegions ctx ra ca rs cs n).2.1 = rs.map ensureLabel := by
  intro rs
  induction rs with
  | nil => intro cs n; rfl
  | cons r rest ih =>
      intro cs n
      simp only [procRegions]
      split
      · rcases hr : procRegions ctx ra ca rest cs n with ⟨bs, rs', cs', n'⟩
        have h := ih cs n
        rw [hr] at h
        dsimp only at h ⊢
        simp only [sampleEffect, List.map_cons]
        rw [h]
      · rcases hl : procLangs ctx
            (if hasKey (sampleData "region_lang" ra r) "languages" then
              delKey (sampleData "region_lang" ra r) "languages"
            else sampleData "region_lang" ra r) ca
            (getArr (sampleData "region_lang" ra r) "languages") cs n with
          ⟨bs1, cs1, n1⟩
        rcases hr : procRegions ctx ra ca rest cs1 n1 with ⟨bs2, rs', cs2, n2⟩
        have h := ih cs1 n1
        rw [hr] at h
        dsimp only at h ⊢
        simp only [sampleEffect, List.map_cons]
        rw [h]

/-- The language loop leaves an `EnsVar`-related crop list behind. -/
theorem procLangs_state (ctx rp : Entry) (ca : List String) :
    ∀ (lgs : List JVal) (cs : List Entry) (n : Nat),
      EnsRel cs (procLangs ctx rp ca lgs cs n).2.1 := by
  intro lgs
  induction lgs with
  | nil =>
      intro cs n
      simp only [procLangs]
      exact ensRel_refl cs
  | cons lg rest ih =>
      intro cs n
      simp only [procLangs]
      rcases hc : procCrops (setKey (setKey ctx "region" (JVal.jobj rp))
          "language" lg) ca cs n with ⟨bs1, cs1, n1⟩
      have hcs1 : cs1 = cs.map ensureLabel := by
        have h := procCrops_state (setKey (setKey ctx "region" (JVal.jobj rp))
          "language" lg) ca cs n
        rw [hc] at h
        exact h
      rcases hl : procLangs ctx rp ca rest cs1 n1 with ⟨bs2, cs2, n2⟩
      have h2 : EnsRel cs1 cs2 := by
        have h := ih cs1 n1
        rw [hl] at h
        exact h
      dsimp only
      exact ensRel_trans (by rw [hcs1]; exact ensRel_ensure cs) h2

/-- The region loop leaves an `EnsVar`-related crop list behind. -/
theorem procRegions_stateCrops (ctx : Entry) (ra ca : List String) :
    ∀ (rs cs : List Entry) (n : Nat),
      EnsRel cs (procRegions ctx ra ca rs cs n).2.2.1 := by
  intro rs
  induction rs with
  | nil =>
      intro cs n
      simp only [procRegions]
      exact ensRel_refl cs
  | cons r rest ih =>
      intro cs n
      simp only [procRegions]
      split
      · rcases hr : procRegions ctx ra ca rest cs n with ⟨bs, rs', cs', n'⟩
        have h := ih cs n
        rw [hr] at h
        dsimp only at h ⊢
        exact h
      · rcases hl : procLangs ctx
            (if hasKey (sampleData "region_lang" ra r) "languages" then
              delKey (sampleData "region_lang" ra r) "languages"
            else sampleData "region_lang" ra r) ca
            (getArr (sampleData "region_lang" ra r) "languages") cs n with
          ⟨bs1, cs1, n1⟩
        have h1 : EnsRel cs cs1 := by
          have h := procLangs_state ctx
            (if hasKey (sampleData "region_lang" ra r) "languages" then
              delKey (sampleData "region_lang" ra r) "languages"
            else sampleData "region_lang" ra r) ca
            (getArr (sampleData "region_lang" ra r) "languages") cs n
          rw [hl] at h
          exact h
        rcases hr : procRegions ctx ra ca rest cs1 n1 with ⟨bs2, rs', cs2, n2⟩
        have h2 : EnsRel cs1 cs2 := by
          have h := ih cs1 n1
          rw [hr] at h
          exact h
        dsimp only
        exact ensRel_trans h1 h2

/-- One pass of the combo loop leaves both stored lists `EnsVar`-related to
their initial values. -/
theorem procCombos_state (ra ca : List String) :
    ∀ (combos : List (List (String × Entry))) (rs cs : List Entry) (n : Nat),
      EnsRel rs (procCombos ra ca combos rs cs n).2.1 ∧
      EnsRel cs (procCombos ra ca combos rs cs n).2.2.1 := by
  intro combos
  induction combos with
  | nil =>
      intro rs cs n
      simp only [procCombos]
      exact ⟨ensRel_refl rs, ensRel_refl cs⟩
  | cons combo more ih =>
      intro rs cs n
      simp only [procCombos]
      rcases hr : procRegions (contextBundle combo) ra ca rs cs n with
        ⟨bs1, rs1, cs1, n1⟩
      have hrs1 : rs1 = rs.map ensureLabel := by
        have h := procRegions_state (contextBundle combo) ra ca rs cs n
        rw [hr] at h
        exact h
      have hcs1 : EnsRel cs cs1 := by
        have h := procRegions_stateCrops (contextBundle combo) ra ca rs cs n
        rw [hr] at h
        exact h
      rcases hm : procCombos ra ca more rs1 cs1 n1 with ⟨bs2, rs2, cs2, n2⟩
      obtain ⟨g1, g2⟩ := ih rs1 cs1 n1
      rw [hm] at g1 g2
      dsimp only at g1 g2 ⊢
      exact ⟨ensRel_trans (by rw [hrs1]; exact ensRel_ensure rs) g1,
             ensRel_trans hcs1 g2⟩

/-- Collecting an axis after the mutation of a previous collection reads
the very same data: `sample`'s view is `ensureLabel`, which is idempotent. -/
theorem collectAxis_mutate (ax : Axis) :
    collectAxis (mutateAxis ax) = collectAxis ax := by
  simp only [collectAxis, mutateAxis, List.map_map]
  apply List.map_congr_left
  intro e _
  simp only [Function.comp_apply, sampleData_eq, sampleEffect, ensureLabel_idem]

/-- `build_all` written with explicit projections of the loop result. -/
theorem build_all_eq (st : BState) :
    build_all st =
      ((procCombos st.regionAttrs st.cropAttrs
          (cartProd (st.indeps.map collectAxis)) st.regions st.crops 0).1,
        ⟨st.indeps.map mutateAxis, st.regionAttrs,
          (procCombos st.regionAttrs st.cropAttrs
            (cartProd (st.indeps.map collectAxis)) st.regions st.crops 0).2.1,
          st.cropAttrs,
          (procCombos st.regionAttrs st.cropAttrs
            (cartProd (st.indeps.map collectAxis)) st.regions st.crops 0).2.2.1⟩) := by
  simp only [build_all]

/-- **C9**: for any fixed taxonomy snapshot and the declared axis order, a
second run of `build_all`, started from the snapshot state the first run
leaves behind, emits the same bundle list, the same file lines (hence the
same id sequence byte for byte), and the same count as the first run. -/
theorem c9_build_all_deterministic (st : BState) :
    (build_all ((build_all st).2)).1 = (build_all st).1 ∧
    build_lines ((build_all st).2) = build_lines st ∧
    build_count ((build_all st).2) = build_count st := by
  have hmain : (build_all ((build_all st).2)).1 = (build_all st).1 := by
    rw [build_all_eq st]
    dsimp only
    rw [build_all_eq]
    dsimp only
    have hax : (st.indeps.map mutateAxis).map collectAxis =
        st.indeps.map collectAxis := by
      rw [List.map_map]
      apply List.map_congr_left
      intro ax _
      exact collectAxis_mutate ax
    rw [hax]
    obtain ⟨hr, hc⟩ := procCombos_state st.regionAttrs st.cropAttrs
      (cartProd (st.indeps.map collectAxis)) st.regions st.crops 0
    exact (procCombos_congr st.regionAttrs st.cropAttrs
      (cartProd (st.indeps.map collectAxis)) hr hc 0).1
  refine ⟨hmain, ?_, ?_⟩
  · simp only [build_lines, hmain]
  · simp only [build_count, hmain]

end AgriGen
